import Mathlib

/-!
# Verification of the attn PTY manager (src/app/src-tauri/src/pty_manager.rs)

A shallow embedding of the pure core of the PTY manager — the byte-boundary
detector, the ANSI stripper, the text heuristics and state classifier, the
input-history tracker, the UUID validator, and the registry operations —
together with theorems settling the specification claims about them.

Bytes are modelled as natural numbers (the Rust code reads `u8` values);
decoded text is modelled as `List Char` (Rust iterates `str::chars()`).
-/

namespace Attn

/-! ## Boundary detector (`find_safe_boundary`, pty_manager.rs lines 86-196) -/

/-- A UTF-8 continuation byte test, `(b & 0b1100_0000) == 0b1000_0000`. -/
def isContByte (b : Nat) : Bool := b &&& 0xC0 == 0x80

/-- Expected UTF-8 sequence length from the leading byte's high bits
(pty_manager.rs lines 172-182). -/
def expectedLen (b : Nat) : Nat :=
  if b < 0x80 then 1
  else if b &&& 0xE0 == 0xC0 then 2
  else if b &&& 0xF0 == 0xE0 then 3
  else if b &&& 0xF8 == 0xF0 then 4
  else 1

/-- A CSI terminator byte, in `0x40..=0x7E`. -/
def csiTerm (b : Nat) : Bool := 0x40 ≤ b && b ≤ 0x7E

/-- Forward scan of an OSC body for its terminator: at each position, found if
the byte is BEL (0x07), or is ESC and the next byte is a backslash
(pty_manager.rs lines 127-137). -/
def oscTerminated : List Nat → Bool
  | [] => false
  | b :: rest => b == 0x07 || (b == 0x1B && rest.head? == some 0x5C) || oscTerminated rest

/-- Forward scan of a DCS/PM/APC body for the ST terminator `ESC \`
(pty_manager.rs lines 144-150). -/
def stTerminated : List Nat → Bool
  | [] => false
  | b :: rest => (b == 0x1B && rest.head? == some 0x5C) || stTerminated rest

/-- Verdict on the bytes following an ESC: `true` when the escape sequence
they continue is incomplete (pty_manager.rs lines 100-157).  An empty
continuation is a lone trailing ESC; `[` opens a CSI needing a byte in
0x40–0x7E; `]` opens an OSC needing BEL or ESC-backslash; `P`/`^`/`_` open a
DCS/PM/APC needing ESC-backslash; anything else is a complete two-byte escape. -/
def escTailIncomplete : List Nat → Bool
  | [] => true
  | b :: rest =>
    if b == 0x5B then !(rest.any csiTerm)
    else if b == 0x5D then !(oscTerminated rest)
    else if b == 0x50 || b == 0x5E || b == 0x5F then !(stTerminated rest)
    else false

/-- Given that `bytes[i] = ESC`, decide whether the escape sequence starting
at `i` is incomplete, i.e. whether the scan at lines 98-158 early-returns `i`. -/
def escIncompleteAt (bytes : List Nat) (i : Nat) : Bool :=
  escTailIncomplete (bytes.drop (i + 1))

/-- Backward scan of the last 32 bytes for the most recent incomplete escape
sequence (pty_manager.rs lines 96-160): the loop runs `i` from `len-1` down to
`len.saturating_sub(32)` and returns the first `i` holding an ESC whose
sequence is incomplete. -/
def escBoundary (bytes : List Nat) : Option Nat :=
  let len := bytes.length
  let searchStart := len - 32
  (List.range' searchStart (len - searchStart)).reverse.find?
    (fun i => bytes.getD i 0 == 0x1B && escIncompleteAt bytes i)

/-- Backward scan of the last 4 bytes for a UTF-8 leading byte; cut at the
leading byte when its sequence is incomplete (pty_manager.rs lines 162-193). -/
def utf8Boundary (bytes : List Nat) : Nat :=
  let len := bytes.length
  match (List.range' (len - 4) (len - (len - 4))).reverse.find?
      (fun i => !isContByte (bytes.getD i 0)) with
  | some i => if expectedLen (bytes.getD i 0) ≤ len - i then len else i
  | none => len

/-- `find_safe_boundary` (pty_manager.rs lines 86-196): index up to which the
buffer is considered safe to emit; the remainder is carried to the next read. -/
def find_safe_boundary (bytes : List Nat) : Nat :=
  if bytes.isEmpty then 0
  else
    match escBoundary bytes with
    | some i => i
    | none => utf8Boundary bytes

/-! ## Streaming reader loop carryover protocol (pty_manager.rs lines 1140-1235)

Each iteration prepends the carryover to the freshly read bytes, splits at
`find_safe_boundary`, emits the prefix (when non-empty) and retains the
suffix; end-of-stream flushes the final carryover (lines 1142-1155). -/

def streamChunks : List Nat → List (List Nat) → List (List Nat)
  | carry, [] => if carry.isEmpty then [] else [carry]
  | carry, r :: rs =>
    let combined := carry ++ r
    let boundary := find_safe_boundary combined
    (if boundary > 0 then [combined.take boundary] else []) ++
      streamChunks (combined.drop boundary) rs

/-! ## Chunk well-formedness

Modelled from the spec: a chunk "contains only complete UTF-8 code points and
complete ANSI escape sequences" — no truncated UTF-8 code point, no CSI
unterminated by a byte in 0x40–0x7E, no OSC unterminated by BEL or
ESC-backslash, no DCS/PM/APC unterminated by ESC-backslash.  We formalise this
as a left-to-right scanner; a chunk is clean when the scan ends in the ground
state (every code point and escape sequence that was started is finished). -/

inductive ScanState where
  | ground
  | utf8Pending (k : Nat)
  | escPending
  | csiPending
  | oscPending
  | oscEscPending
  | dcsPending
  | dcsEscPending
  | bad
  deriving Repr, DecidableEq, BEq

open ScanState in
/-- One step of the chunk scanner. -/
def scanStep (s : ScanState) (b : Nat) : ScanState :=
  match s with
  | ground =>
    if b == 0x1B then escPending
    else if b < 0x80 then ground
    else if b &&& 0xE0 == 0xC0 then utf8Pending 1
    else if b &&& 0xF0 == 0xE0 then utf8Pending 2
    else if b &&& 0xF8 == 0xF0 then utf8Pending 3
    else bad
  | utf8Pending k =>
    if isContByte b then (if k ≤ 1 then ground else utf8Pending (k - 1)) else bad
  | escPending =>
    if b == 0x5B then csiPending
    else if b == 0x5D then oscPending
    else if b == 0x50 || b == 0x5E || b == 0x5F then dcsPending
    else ground
  | csiPending => if csiTerm b then ground else csiPending
  | oscPending =>
    if b == 0x07 then ground else if b == 0x1B then oscEscPending else oscPending
  | oscEscPending =>
    if b == 0x5C then ground
    else if b == 0x07 then ground
    else if b == 0x1B then oscEscPending
    else oscPending
  | dcsPending => if b == 0x1B then dcsEscPending else dcsPending
  | dcsEscPending =>
    if b == 0x5C then ground else if b == 0x1B then dcsEscPending else dcsPending
  | bad => bad

/-- Scan a chunk from the ground state. -/
def scanChunk (l : List Nat) : ScanState := l.foldl scanStep ScanState.ground

/-- A chunk is clean when it contains only complete UTF-8 code points and
complete ANSI escape sequences. -/
def chunkClean (l : List Nat) : Bool := scanChunk l == ScanState.ground

/-! ## Structured byte streams

The amended C2 claim quantifies over buffers that are a concatenation of
complete items (UTF-8 code points other than ESC; CSI/OSC/DCS/PM/APC
sequences without interior ESC bytes; two-byte escapes with an ASCII second
byte) followed by at most one truncated item of length at most 32. -/

/-- A complete UTF-8 code point as a byte list (the byte patterns used by
`find_safe_boundary`), excluding the ESC character. -/
def isUtf8CharBytes : List Nat → Bool
  | [b] => b < 0x80 && b != 0x1B
  | [b, c] => b &&& 0xE0 == 0xC0 && isContByte c
  | [b, c, d] => b &&& 0xF0 == 0xE0 && isContByte c && isContByte d
  | [b, c, d, e] => b &&& 0xF8 == 0xF0 && isContByte c && isContByte d && isContByte e
  | _ => false

/-- Body of a complete CSI sequence: parameter bytes (neither terminator nor
ESC) followed by one terminator byte in 0x40–0x7E. -/
def csiBody : List Nat → Bool
  | [] => false
  | p :: rest => if csiTerm p then rest.isEmpty else p != 0x1B && csiBody rest

/-- Body of a complete OSC sequence: payload bytes (neither BEL nor ESC)
terminated by BEL or by ESC-backslash. -/
def oscBody : List Nat → Bool
  | [] => false
  | p :: rest =>
    if p == 0x07 then rest.isEmpty
    else if p == 0x1B then rest == [0x5C]
    else oscBody rest

/-- Body of a complete DCS/PM/APC sequence: payload bytes (not ESC) terminated
by ESC-backslash. -/
def stBody : List Nat → Bool
  | [] => false
  | p :: rest => if p == 0x1B then rest == [0x5C] else stBody rest

/-- A complete ANSI escape sequence with no interior ESC byte (other than the
ESC of a final ESC-backslash terminator) and an ASCII second byte for plain
two-byte escapes. -/
def isEscItem : List Nat → Bool
  | 0x1B :: b :: rest =>
    if b == 0x5B then csiBody rest
    else if b == 0x5D then oscBody rest
    else if b == 0x50 || b == 0x5E || b == 0x5F then stBody rest
    else b < 0x80 && b != 0x1B && rest.isEmpty
  | _ => false

/-- A complete item of the stream. -/
def isItem (l : List Nat) : Bool := isUtf8CharBytes l || isEscItem l

/-- A truncated UTF-8 code point: a leading byte followed by too few
continuation bytes. -/
def isPartialUtf8 : List Nat → Bool
  | [] => false
  | b :: rest => !isContByte b && rest.all isContByte && rest.length + 1 < expectedLen b

/-- A truncated ANSI escape sequence with no interior ESC byte. -/
def isPartialEsc : List Nat → Bool
  | [0x1B] => true
  | 0x1B :: b :: rest =>
    if b == 0x5B then rest.all (fun p => !csiTerm p && p != 0x1B)
    else if b == 0x5D then rest.all (fun p => p != 0x07 && p != 0x1B)
    else if b == 0x50 || b == 0x5E || b == 0x5F then rest.all (fun p => p != 0x1B)
    else false
  | _ => false

/-- The carry-over fragment at the end of a structured buffer: empty, or one
truncated item. -/
def isTailFragment (l : List Nat) : Bool := l.isEmpty || isPartialUtf8 l || isPartialEsc l

/-! ## Text utilities over decoded characters

Decoded terminal text is modelled as `List Char`.  `containsSub` models Rust
`str::contains` (substring search), `toLowerL` models `str::to_lowercase`
(faithful on the ASCII range the heuristics search over), and the trim
functions model `str::trim`, `trim_start`, `trim_end` with the whitespace
predicate modelled by `Char.isWhitespace`. -/

def containsSub (hay needle : List Char) : Bool :=
  match hay with
  | [] => needle.isEmpty
  | _ :: rest => needle.isPrefixOf hay || containsSub rest needle

def endsWithL (hay needle : List Char) : Bool := needle.isSuffixOf hay

/-- Index (in characters) of the first occurrence of `needle` in `text`,
modelling Rust `str::find`. -/
def firstMatchIdx (text needle : List Char) : Option Nat :=
  match text with
  | [] => if needle.isEmpty then some 0 else none
  | _ :: rest =>
    if needle.isPrefixOf text then some 0
    else (firstMatchIdx rest needle).map (· + 1)

def toLowerL (l : List Char) : List Char := l.map Char.toLower

def trimStartL (l : List Char) : List Char := l.dropWhile Char.isWhitespace

def trimEndL (l : List Char) : List Char := (l.reverse.dropWhile Char.isWhitespace).reverse

def trimL (l : List Char) : List Char := trimEndL (trimStartL l)

/-- Split at every newline, keeping all pieces (including empty ones). -/
def splitNl : List Char → List (List Char)
  | [] => [[]]
  | c :: rest =>
    if c = '\n' then [] :: splitNl rest
    else
      match splitNl rest with
      | [] => [[c]]
      | p :: ps => (c :: p) :: ps

def stripTrailingCR (p : List Char) : List Char :=
  if p.getLast? = some '\r' then p.dropLast else p

/-- Rust `str::lines`: split at `\n` or `\r\n`; a final line ending is
optional and produces no trailing empty line. -/
def rustLines (l : List Char) : List (List Char) :=
  match l with
  | [] => []
  | _ =>
    let ps := splitNl l
    if l.getLast? = some '\n' then ps.dropLast.map stripTrailingCR
    else ps.dropLast.map stripTrailingCR ++ [ps.getLastD []]

/-! ## `strip_ansi` (pty_manager.rs lines 320-361)

The peekable-iterator loop is embedded as a single recursion over the
remaining characters with an explicit mode: `plain` is the top of the outer
loop; `afterEsc` is the state just after consuming an ESC (the `peek`
dispatch); `csi` is the CSI consumption loop (consume until a character in
0x40–0x7E); `osc` is the OSC consumption loop (consume until BEL or
ESC-backslash); `oscEsc` is the state inside the OSC loop just after an ESC
(a following backslash ends the sequence, anything else stays in the
loop). -/

inductive StripMode where
  | plain
  | afterEsc
  | csi
  | osc
  | oscEsc
  deriving Repr, DecidableEq

def stripAnsiGo : StripMode → List Char → List Char
  | _, [] => []
  | .plain, c :: rest =>
    if c = '\u001B' then stripAnsiGo .afterEsc rest
    else c :: stripAnsiGo .plain rest
  | .afterEsc, c :: rest =>
    if c = '[' then stripAnsiGo .csi rest
    else if c = ']' then stripAnsiGo .osc rest
    else if c = '\u001B' then stripAnsiGo .afterEsc rest
    else c :: stripAnsiGo .plain rest
  | .csi, c :: rest =>
    if 0x40 ≤ c.toNat ∧ c.toNat ≤ 0x7E then stripAnsiGo .plain rest
    else stripAnsiGo .csi rest
  | .osc, c :: rest =>
    if c = '\u0007' then stripAnsiGo .plain rest
    else if c = '\u001B' then stripAnsiGo .oscEsc rest
    else stripAnsiGo .osc rest
  | .oscEsc, c :: rest =>
    if c = '\\' then stripAnsiGo .plain rest
    else if c = '\u0007' then stripAnsiGo .plain rest
    else if c = '\u001B' then stripAnsiGo .oscEsc rest
    else stripAnsiGo .osc rest

def strip_ansi (l : List Char) : List Char := stripAnsiGo .plain l

/-! ## Text heuristics (pty_manager.rs lines 198-791)

The repository file stores the heuristic glyphs double-encoded; the decoded
code points used below are the prompt glyphs `>`, `›`, `❯`, `»`, `❱` and the
assistant bullet glyphs `•`, `·`, `●` of `DEFAULT_HEURISTICS`,
`is_prompt_line` and `is_assistant_line`. -/

def STATE_WORKING : String := "working"

def STATE_WAITING_INPUT : String := "waiting_input"

def STATE_PENDING_APPROVAL : String := "pending_approval"

def STATE_IDLE : String := "idle"

def promptMarkers : List (List Char) :=
  [" › ".data, " > ".data, "❯ ".data, "» ".data, "❱ ".data]

def statusMarkers : List (List Char) := ["context left".data, "for shortcuts".data]

def requestPhrases : List (List Char) :=
  ["let me know what".data, "let me know if".data, "tell me what else".data,
   "tell me what to do".data, "what should i do".data, "what would you like".data,
   "what do you want".data, "how can i help".data, "can you".data, "could you".data,
   "do you want".data]

def listRequestTriggers : List (List Char) :=
  ["pick one".data, "choose".data, "select".data, "tell me".data]

/-- `is_pending_approval` (pty_manager.rs lines 558-587). -/
def is_pending_approval (text : List Char) : Bool :=
  let lower := toLowerL text
  if containsSub lower "would you like to run the following command".data then true
  else
    let hasKeyword := containsSub lower "approve".data || containsSub lower "approval".data
      || containsSub lower "permission".data || containsSub lower "allow".data
      || containsSub lower "confirm".data || containsSub lower "proceed".data
      || containsSub lower "run this command".data || containsSub lower "execute command".data
      || containsSub lower "run command".data
    let hasPrompt := containsSub lower "y/n".data || containsSub lower "[y/n".data
      || containsSub lower "(y/n".data || containsSub lower "[y/n]".data
      || containsSub lower "y or n".data || containsSub lower "yes/no".data
      || containsSub lower "press y".data || containsSub lower "type y".data
      || containsSub lower "press enter to confirm".data
    let hasReason := containsSub lower "reason:".data
    let hasOption := containsSub lower "yes, proceed".data
      || containsSub lower "don\x27t ask again".data
      || containsSub lower "dont ask again".data || containsSub lower "no, and tell".data
    (hasKeyword && hasPrompt) || (hasReason && hasOption)

/-- `is_prompt_line` (pty_manager.rs lines 589-602). -/
def is_prompt_line (line : List Char) : Bool :=
  match trimStartL line with
  | [] => false
  | first :: _ => first = '>' || first = '›' || first = '❯' || first = '»' || first = '❱'

/-- `is_assistant_line` (pty_manager.rs lines 604-626). -/
def is_assistant_line (line : List Char) : Bool :=
  match trimStartL line with
  | [] => false
  | first :: rest =>
    if first = '•' || first = '·' || first = '●' then
      let r := toLowerL (trimStartL rest)
      !("working".data.isPrefixOf r || "thinking".data.isPrefixOf r
        || "running".data.isPrefixOf r || "executing".data.isPrefixOf r)
    else false

def truncAtMarker (text marker : List Char) : List Char :=
  match firstMatchIdx text marker with
  | some i => text.take i
  | none => text

/-- `last_assistant_text` on the reversed line list (pty_manager.rs lines
628-656 iterate `lines.iter().rev()`). -/
def lastAssistantTextRev : List (List Char) → Option (List Char)
  | [] => none
  | line :: rest =>
    let trimmed := trimL line
    if trimmed.isEmpty then lastAssistantTextRev rest
    else if is_assistant_line trimmed then
      let text := trimL (trimmed.drop 1)
      let text := promptMarkers.foldl truncAtMarker text
      let text := statusMarkers.foldl truncAtMarker text
      let text := trimL text
      if text.isEmpty then lastAssistantTextRev rest else some text
    else lastAssistantTextRev rest

def last_assistant_text (lines : List (List Char)) : Option (List Char) :=
  lastAssistantTextRev lines.reverse

/-- `has_prompt` (pty_manager.rs lines 658-669). -/
def has_prompt (lines : List (List Char)) : Bool :=
  lines.any (fun line =>
    is_prompt_line line || promptMarkers.any (fun m => containsSub line m))

/-- `has_numbered_list` (pty_manager.rs lines 671-685). -/
def has_numbered_list (lines : List (List Char)) : Bool :=
  lines.any (fun line =>
    match trimStartL line with
    | a :: b :: _ => a.isDigit && b = '.'
    | _ => false)

/-- `assistant_requests_input` (pty_manager.rs lines 687-713). -/
def assistant_requests_input (assistantText fullText : List Char)
    (lines : List (List Char)) : Bool :=
  let lowerAssistant := toLowerL assistantText
  let lowerFull := toLowerL fullText
  if assistantText.contains '?' then true
  else if requestPhrases.any (fun p => containsSub lowerAssistant p) then true
  else if has_numbered_list lines then
    listRequestTriggers.any (fun p => containsSub lowerFull p)
  else false

def trimEndCRLF (line : List Char) : List Char :=
  (line.reverse.dropWhile (fun c => c = '\r' || c = '\n')).reverse

/-- `is_waiting_input` (pty_manager.rs lines 715-771). -/
def is_waiting_input (text : List Char) : Bool :=
  let lower := toLowerL text
  if containsSub lower "enter your response".data
      || containsSub lower "type your response".data
      || containsSub lower "your response:".data
      || containsSub lower "your reply:".data
      || containsSub lower "input:".data then true
  else
    let lines := rustLines text
    let nonEmpty := (lines.map trimEndCRLF).filter (fun l => !(trimL l).isEmpty)
    match nonEmpty.getLast? with
    | none => false
    | some last =>
      if endsWithL last "You:".data || endsWithL last "User:".data then true
      else if is_prompt_line last then
        match last_assistant_text nonEmpty with
        | some atext => assistant_requests_input atext text nonEmpty
        | none => true
      else
        let tail4 := nonEmpty.reverse.take 4
        let hasPrompt4 := tail4.any is_prompt_line
        let hasStatus4 :=
          tail4.any (fun line => statusMarkers.any (fun m => containsSub line m))
        if hasPrompt4 && hasStatus4 then
          match last_assistant_text nonEmpty with
          | some atext => assistant_requests_input atext text nonEmpty
          | none => true
        else false

/-- `classify_state` (pty_manager.rs lines 773-791). -/
def classify_state (text : List Char) : Option String :=
  let cleaned := strip_ansi text
  let lines := rustLines cleaned
  let promptShown := has_prompt lines
  if is_pending_approval cleaned then some STATE_PENDING_APPROVAL
  else if is_waiting_input cleaned then some STATE_WAITING_INPUT
  else if promptShown then some STATE_IDLE
  else if !(trimL cleaned).isEmpty then some STATE_WORKING
  else none

/-- `tail_lines` (pty_manager.rs lines 552-556). -/
def tail_lines (text : List Char) (maxLines : Nat) : List Char :=
  let lines := rustLines text
  List.intercalate ['\n'] (lines.drop (lines.length - maxLines))

/-- `trim_to_last_chars` (pty_manager.rs lines 307-318): keep the last
`maxChars` characters. -/
def trim_to_last_chars (input : List Char) (maxChars : Nat) : List Char :=
  if input.length ≤ maxChars then input else input.drop (input.length - maxChars)

/-! ## Input history tracker (pty_manager.rs lines 484-550)

A session's `input_history` is a Rust `String`; it is modelled as the list of
its characters, and its Rust `len()` (a UTF-8 byte count) as the length of
its UTF-8 encoding. -/

/-- Standard UTF-8 encoding of one scalar value. -/
def utf8EncodeChar (c : Char) : List Nat :=
  let v := c.toNat
  if v < 0x80 then [v]
  else if v < 0x800 then [0xC0 + v / 0x40, 0x80 + v % 0x40]
  else if v < 0x10000 then
    [0xE0 + v / 0x1000, 0x80 + v / 0x40 % 0x40, 0x80 + v % 0x40]
  else
    [0xF0 + v / 0x40000, 0x80 + v / 0x1000 % 0x40, 0x80 + v / 0x40 % 0x40,
      0x80 + v % 0x40]

def utf8Encode (l : List Char) : List Nat := (l.map utf8EncodeChar).flatten

/-- Rust `String::len`: the byte length of the UTF-8 encoding. -/
def byteLen (l : List Char) : Nat := (utf8Encode l).length

/-- Rust `char::is_control`: the Unicode Cc category, U+0000–U+001F, U+007F
and U+0080–U+009F. -/
def isControlRust (c : Char) : Bool :=
  c.toNat < 0x20 || c.toNat == 0x7F || (0x80 ≤ c.toNat && c.toNat ≤ 0x9F)

/-- One character of `update_input_history` (pty_manager.rs lines 485-508):
state is the history text plus the `input_escape` flag. -/
def inputStep (st : List Char × Bool) (ch : Char) : List Char × Bool :=
  let (history, escape) := st
  if escape then
    if ch.isAlpha ∨ ch = '~' then (history, false) else (history, true)
  else if ch = '\u001B' then (history, true)
  else if ch = '\u007F' ∨ ch = '\u0008' then (history.dropLast, false)
  else if ch = '\r' then (history ++ ['\n'], false)
  else if isControlRust ch ∧ ch ≠ '\n' ∧ ch ≠ '\t' then (history, false)
  else (history ++ [ch], false)

/-- `trim_history` (pty_manager.rs lines 540-550) on the character view: the
byte-level code computes `start = len - max_len` and advances `start` to the
next UTF-8 character boundary, i.e. it keeps the longest character suffix
whose byte length is at most `max_len` (`trim_history_bytes_eq_encode`
below proves the two views agree). -/
def trimHistoryChars : List Char → Nat → List Char
  | [], _ => []
  | c :: rest, maxLen =>
    if byteLen (c :: rest) ≤ maxLen then c :: rest else trimHistoryChars rest maxLen

/-- Rust `str::is_char_boundary` on a byte: not a UTF-8 continuation byte. -/
def isCharBoundaryByte (b : Nat) : Bool := b < 0x80 || 0xC0 ≤ b

/-- Length of the maximal non-boundary prefix: the number of steps the
`while start < len && !is_char_boundary(start)` loop advances. -/
def advanceLen : List Nat → Nat
  | [] => 0
  | b :: rest => if isCharBoundaryByte b then 0 else advanceLen rest + 1

/-- `trim_history` (pty_manager.rs lines 540-550), literal byte-level
embedding. -/
def trim_history_bytes (bytes : List Nat) (maxLen : Nat) : List Nat :=
  if bytes.length ≤ maxLen then bytes
  else
    let start := bytes.length - maxLen
    bytes.drop (start + advanceLen (bytes.drop start))

/-- `update_input_history` (pty_manager.rs lines 484-514): fold the input
characters, then trim when the byte length exceeds `MAX_HISTORY = 20000`. -/
def update_input_history (st : List Char × Bool) (data : List Char) :
    List Char × Bool :=
  let st' := data.foldl inputStep st
  if byteLen st'.1 > 20000 then (trimHistoryChars st'.1 20000, st'.2) else st'

/-! ## Session registry operations (pty_manager.rs lines 941-1376)

The registry (`sessions: HashMap<String, PtySession>`) is modelled as an
association list; the mock registry (`mock_sessions`) as a list of ids.  OS
resources (master/writer/child handles) and lock poisoning are outside the
pure model: each operation is modelled on its success path through the
locks, which is the path the claims quantify over. -/

structure SessionModel where
  agent : String
  inputHistory : List Char
  inputEscape : Bool
  transcriptPath : Option String
  deriving Repr, DecidableEq

def lookupSession (reg : List (String × SessionModel)) (id : String) :
    Option SessionModel :=
  (reg.find? (fun p => p.1 == id)).map (·.2)

def removeSession (reg : List (String × SessionModel)) (id : String) :
    List (String × SessionModel) :=
  reg.eraseP (fun p => p.1 == id)

def updateSession (reg : List (String × SessionModel)) (id : String)
    (s : SessionModel) : List (String × SessionModel) :=
  reg.map (fun p => if p.1 == id then (p.1, s) else p)

/-- `pty_write` (pty_manager.rs lines 1256-1298): mock mode requires the id in
the mock registry; otherwise the session is looked up (`Session not found` on
a miss), the input-history tracker runs for codex sessions, and the bytes are
written to the session writer. -/
def pty_write_model (mockMode : Bool) (mockReg : List String)
    (reg : List (String × SessionModel)) (id : String) (data : List Char) :
    Except String (List (String × SessionModel)) :=
  if mockMode then
    if mockReg.contains id then Except.ok reg else Except.error "Session not found"
  else
    match lookupSession reg id with
    | none => Except.error "Session not found"
    | some s =>
      let s' :=
        if s.agent == "codex" then
          let upd := update_input_history (s.inputHistory, s.inputEscape) data
          { s with inputHistory := upd.1, inputEscape := upd.2 }
        else s
      Except.ok (updateSession reg id s')

/-- `pty_kill` (pty_manager.rs lines 1330-1376): mock mode removes the id and
errors with `Session not found` when absent; the real path signals the child
if the session exists, then unconditionally removes the map entry and
returns `Ok`. -/
def pty_kill_model (mockMode : Bool) (mockReg : List String)
    (reg : List (String × SessionModel)) (id : String) :
    Except String (List String × List (String × SessionModel)) :=
  if mockMode then
    if mockReg.contains id then Except.ok (mockReg.erase id, reg)
    else Except.error "Session not found"
  else
    Except.ok (mockReg, removeSession reg id)

/-! ## Spawn validation (pty_manager.rs lines 51-57 and 964-1127) -/

def isHexLowerDigit (c : Char) : Bool :=
  ('0' ≤ c && c ≤ '9') || ('a' ≤ c && c ≤ 'f')

/-- `is_valid_uuid` (pty_manager.rs lines 53-57): the regex
`[0-9a-f]{8}-[0-9a-f]{4}-[0-9a-f]{4}-[0-9a-f]{4}-[0-9a-f]{12}` anchored on
both ends: 36 characters, hyphens at positions 8, 13, 18, 23, lowercase hex
everywhere else. -/
def is_valid_uuid (s : List Char) : Bool :=
  s.length == 36 &&
  (List.range 36).all (fun i =>
    if i == 8 || i == 13 || i == 18 || i == 23 then s.getD i ' ' == '-'
    else isHexLowerDigit (s.getD i ' '))

/-- `normalize_agent` (pty_manager.rs lines 299-305). -/
def normalize_agent (agent : Option String) : String :=
  match agent with
  | some v => if v.toLower = "claude" then "claude"
      else if v.toLower = "codex" then "codex" else "codex"
  | none => "codex"

/-- The resume/fork flag string built at pty_manager.rs lines 1051-1060. -/
def fork_flags (resumeSessionId : Option (List Char))
    (resumePicker forkSession : Bool) : List Char :=
  match resumeSessionId, resumePicker, forkSession with
  | some rid, _, true => " --resume \x27".data ++ rid ++ "\x27 --fork-session".data
  | some rid, _, false => " --resume \x27".data ++ rid ++ "\x27".data
  | none, true, false => " --resume".data
  | _, _, _ => []

/-- `pty_spawn` (pty_manager.rs lines 964-1254), pure command-building and
registration slice: plain shells skip agent command construction; agent
spawns validate `resume_session_id` (rejecting before any flag string is
built and before the session is registered) and then register the session
and run `exec attn` plus the fork flags through the login shell. -/
def pty_spawn_model (reg : List (String × SessionModel)) (id : String)
    (isShell : Bool) (resumeSessionId : Option (List Char))
    (resumePicker forkSession : Bool) (agent : Option String) :
    Except (List Char) (List (String × SessionModel) × List Char) :=
  let resolvedAgent := normalize_agent agent
  let newSession : SessionModel := ⟨resolvedAgent, [], false, none⟩
  if isShell then
    Except.ok ((id, newSession) :: reg, [])
  else
    match resumeSessionId with
    | some rid =>
      if is_valid_uuid rid then
        Except.ok ((id, newSession) :: reg,
          "exec attn".data ++ fork_flags (some rid) resumePicker forkSession)
      else
        Except.error ("Invalid resume session ID format: ".data ++ rid)
    | none =>
      Except.ok ((id, newSession) :: reg,
        "exec attn".data ++ fork_flags none resumePicker forkSession)

/-! ## Daemon notifier deduplication (pty_manager.rs lines 1196-1226)

The reader loop keeps `last_state`; a computed state is sent only when it
differs from the previously surfaced one, and `last_state` is then updated.
`notifyFold` runs that rule over a list of per-iteration classification
results (`None` means the classifier abstained and nothing is sent). -/

def notifyFold : Option String → List (Option String) → List String
  | _, [] => []
  | lastState, none :: rest => notifyFold lastState rest
  | lastState, some s :: rest =>
    if lastState == some s then notifyFold lastState rest
    else s :: notifyFold (some s) rest

/-! ## Reader-loop state notification step (pty_manager.rs lines 1178-1226) -/

/-- The `(allow_state_detection, allow_pending_only)` pair computed each
iteration (pty_manager.rs lines 1178-1194); `sess` carries the registry
lookup result as the session's agent and whether `transcript_path` is set. -/
def allowFlags (detectStateEnabled lockOk : Bool) (sess : Option (String × Bool)) :
    Bool × Bool :=
  if detectStateEnabled then
    if lockOk then
      match sess with
      | some (agent, transcriptSet) =>
        if agent == "codex" then (false, transcriptSet) else (true, false)
      | none => (false, false)
    else (false, false)
  else (false, false)

structure ReaderLoopState where
  textTail : List Char
  lastState : Option String
  deriving Repr, DecidableEq

/-- One iteration of the reader loop's state-notification logic
(pty_manager.rs lines 1196-1226) on the decoded chunk text (`chunk` is
non-empty exactly when `boundary > 0`): returns the daemon messages sent and
the updated rolling tail and `last_state`. -/
def readerIterNotify (detectStateEnabled lockOk : Bool)
    (sess : Option (String × Bool)) (chunk : List Char) (st : ReaderLoopState) :
    List String × ReaderLoopState :=
  let flags := allowFlags detectStateEnabled lockOk sess
  let pending :=
    if flags.2 && !chunk.isEmpty then
      let cleaned := strip_ansi chunk
      if !cleaned.isEmpty && is_pending_approval cleaned then
        if st.lastState == some STATE_PENDING_APPROVAL then ([], st)
        else ([STATE_PENDING_APPROVAL], { st with lastState := some STATE_PENDING_APPROVAL })
      else ([], st)
    else ([], st)
  let st1 := pending.2
  let detect :=
    if flags.1 && !chunk.isEmpty then
      let cleaned := strip_ansi chunk
      if !cleaned.isEmpty then
        let tail0 := st1.textTail ++ cleaned
        let tail1 := if byteLen tail0 > 2000 then trim_to_last_chars tail0 2000 else tail0
        let recent := tail_lines tail1 6
        match classify_state recent with
        | some s =>
          if st1.lastState == some s then ([], { st1 with textTail := tail1 })
          else ([s], ⟨tail1, some s⟩)
        | none => ([], { st1 with textTail := tail1 })
      else ([], st1)
    else ([], st1)
  (pending.1 ++ detect.1, detect.2)

/-! ## Example texts (pty_manager.rs test module, decoded) -/

/-- The codex approval prompt of test `pending_approval_detects_codex_prompt`. -/
def approval_example : String :=
  "Would you like to run the following command?\nReason: make install needs to write Go build cache outside the workspace.\n$ make install\n1. Yes, proceed (y)\n2. Yes, and don\x27t ask again for commands that start with \x27make install\x27 (p)\n3. No, and tell Codex what to do differently (esc)\n"

/-- The same prompt with ANSI bold color codes inserted
(test `approval_detection_with_ansi_wrapping`). -/
def approval_example_ansi : String :=
  "\x1b[1mWould you like to run the following command?\x1b[0m\nReason: make install needs to write Go build cache outside the workspace.\n$ make install\n1. Yes, proceed (y)\n2. Yes, and don\x27t ask again for commands that start with \x27make install\x27 (p)\n3. No, and tell Codex what to do differently (esc)\n"

/-- The same prompt with box-drawing borders drawn around it
(test `approval_detection_with_box_drawing`). -/
def approval_example_box : String :=
  "╭──────────────────────────────────────────────╮\n│ Would you like to run the following command? │\n╰──────────────────────────────────────────────╯\nReason: make install needs to write Go build cache outside the workspace.\n$ make install\n1. Yes, proceed (y)\n2. Yes, and don\x27t ask again for commands that start with \x27make install\x27 (p)\n3. No, and tell Codex what to do differently (esc)\n"

end Attn

namespace Attn

/-! ## Helper lemmas -/

theorem and_absorb {b x y v : Nat} (hxy : x &&& y = y) (h : b &&& x = v) :
    b &&& y = v &&& y := by
  calc b &&& y = b &&& (x &&& y) := by rw [hxy]
    _ = b &&& x &&& y := (Nat.and_assoc b x y).symm
    _ = v &&& y := by rw [h]

theorem lead2_spec {b : Nat} (h : b &&& 0xE0 = 0xC0) :
    b &&& 0xC0 = 0xC0 ∧ 0xC0 ≤ b ∧ expectedLen b = 2 := by
  have hc : b &&& 0xC0 = 0xC0 := by
    have := and_absorb (x := 0xE0) (y := 0xC0) (by decide) h
    simpa using this
  have hle : 0xC0 ≤ b := by
    calc (0xC0 : Nat) = b &&& 0xE0 := h.symm
      _ ≤ b := Nat.and_le_left
  refine ⟨hc, hle, ?_⟩
  simp only [expectedLen, h]
  norm_num
  omega

theorem lead3_spec {b : Nat} (h : b &&& 0xF0 = 0xE0) :
    b &&& 0xE0 = 0xE0 ∧ b &&& 0xC0 = 0xC0 ∧ 0xE0 ≤ b ∧ expectedLen b = 3 := by
  have he : b &&& 0xE0 = 0xE0 := by
    have := and_absorb (x := 0xF0) (y := 0xE0) (by decide) h
    simpa using this
  have hc : b &&& 0xC0 = 0xC0 := by
    have := and_absorb (x := 0xE0) (y := 0xC0) (by decide) he
    simpa using this
  have hle : 0xE0 ≤ b := by
    calc (0xE0 : Nat) = b &&& 0xF0 := h.symm
      _ ≤ b := Nat.and_le_left
  refine ⟨he, hc, hle, ?_⟩
  simp only [expectedLen, h, he]
  norm_num
  omega

theorem lead4_spec {b : Nat} (h : b &&& 0xF8 = 0xF0) :
    b &&& 0xF0 = 0xF0 ∧ b &&& 0xE0 = 0xE0 ∧ b &&& 0xC0 = 0xC0 ∧ 0xF0 ≤ b ∧
      expectedLen b = 4 := by
  have hf : b &&& 0xF0 = 0xF0 := by
    have := and_absorb (x := 0xF8) (y := 0xF0) (by decide) h
    simpa using this
  have he : b &&& 0xE0 = 0xE0 := by
    have := and_absorb (x := 0xF0) (y := 0xE0) (by decide) hf
    simpa using this
  have hc : b &&& 0xC0 = 0xC0 := by
    have := and_absorb (x := 0xE0) (y := 0xC0) (by decide) he
    simpa using this
  have hle : 0xF0 ≤ b := by
    calc (0xF0 : Nat) = b &&& 0xF8 := h.symm
      _ ≤ b := Nat.and_le_left
  refine ⟨hf, he, hc, hle, ?_⟩
  simp only [expectedLen, h, he, hf]
  norm_num
  omega

theorem isContByte_false_of_low {b : Nat} (h : b < 0x80) : isContByte b = false := by
  have : b &&& 0xC0 ≤ b := Nat.and_le_left
  simp only [isContByte, beq_eq_false_iff_ne, ne_eq]
  omega

theorem csiBody_scan {body : List Nat} (h : csiBody body = true) :
    List.foldl scanStep ScanState.csiPending body = ScanState.ground := by
  induction body with
  | nil => simp [csiBody] at h
  | cons p rest ih =>
    simp only [csiBody] at h
    by_cases hp : csiTerm p = true
    · rw [if_pos hp] at h
      rw [List.isEmpty_iff.mp h]
      simp [scanStep, hp]
    · rw [if_neg hp] at h
      simp only [List.foldl]
      rw [show scanStep ScanState.csiPending p = ScanState.csiPending by
        simp [scanStep, hp]]
      exact ih (Bool.and_elim_right h)

theorem oscBody_scan {body : List Nat} (h : oscBody body = true) :
    List.foldl scanStep ScanState.oscPending body = ScanState.ground := by
  induction body with
  | nil => simp [oscBody] at h
  | cons p rest ih =>
    simp only [oscBody] at h
    by_cases h7 : p == 0x07
    · rw [if_pos h7] at h
      rw [List.isEmpty_iff.mp h, show p = 0x07 from by simpa using h7]
      decide
    · rw [if_neg (by simpa using h7)] at h
      by_cases h27 : p == 0x1B
      · rw [if_pos h27] at h
        rw [show p = 0x1B from by simpa using h27, show rest = [0x5C] from by simpa using h]
        decide
      · rw [if_neg (by simpa using h27)] at h
        simp only [List.foldl]
        rw [show scanStep ScanState.oscPending p = ScanState.oscPending by
          simp [scanStep, h7, h27]]
        exact ih h

theorem stBody_scan {body : List Nat} (h : stBody body = true) :
    List.foldl scanStep ScanState.dcsPending body = ScanState.ground := by
  induction body with
  | nil => simp [stBody] at h
  | cons p rest ih =>
    simp only [stBody] at h
    by_cases h27 : p == 0x1B
    · rw [if_pos h27] at h
      rw [show p = 0x1B from by simpa using h27, show rest = [0x5C] from by simpa using h]
      decide
    · rw [if_neg (by simpa using h27)] at h
      simp only [List.foldl]
      rw [show scanStep ScanState.dcsPending p = ScanState.dcsPending by
        simp [scanStep, h27]]
      exact ih h

theorem item_scan {it : List Nat} (h : isItem it = true) :
    List.foldl scanStep ScanState.ground it = ScanState.ground := by
  simp only [isItem, Bool.or_eq_true] at h
  rcases h with h | h
  · -- a complete UTF-8 code point
    match it, h with
    | [b], h =>
      simp only [isUtf8CharBytes, Bool.and_eq_true, decide_eq_true_eq, bne_iff_ne, ne_eq] at h
      obtain ⟨hlt, hne⟩ := h
      simp [scanStep, hne, hlt]
    | [b, c], h =>
      simp only [isUtf8CharBytes, Bool.and_eq_true, beq_iff_eq] at h
      obtain ⟨hb, hc⟩ := h
      obtain ⟨_, hle, _⟩ := lead2_spec hb
      have h1 : scanStep ScanState.ground b = ScanState.utf8Pending 1 := by
        simp only [scanStep, hb]
        rw [if_neg (by simp; omega), if_neg (by omega), if_pos (by simp)]
      simp only [List.foldl]
      rw [h1]
      simp [scanStep, hc]
    | [b, c, d], h =>
      simp only [isUtf8CharBytes, Bool.and_eq_true, beq_iff_eq] at h
      obtain ⟨⟨hb, hc⟩, hd⟩ := h
      obtain ⟨he, _, hle, _⟩ := lead3_spec hb
      have h1 : scanStep ScanState.ground b = ScanState.utf8Pending 2 := by
        simp only [scanStep, hb, he]
        rw [if_neg (by simp; omega), if_neg (by omega), if_neg (by simp), if_pos (by simp)]
      simp only [List.foldl]
      rw [h1, show scanStep (ScanState.utf8Pending 2) c = ScanState.utf8Pending 1 by
        simp [scanStep, hc]]
      simp [scanStep, hd]
    | [b, c, d, e], h =>
      simp only [isUtf8CharBytes, Bool.and_eq_true, beq_iff_eq] at h
      obtain ⟨⟨⟨hb, hc⟩, hd⟩, he'⟩ := h
      obtain ⟨hf, hee, _, hle, _⟩ := lead4_spec hb
      have h1 : scanStep ScanState.ground b = ScanState.utf8Pending 3 := by
        simp only [scanStep, hb, hee, hf]
        rw [if_neg (by simp; omega), if_neg (by omega), if_neg (by simp), if_neg (by simp),
          if_pos (by simp)]
      simp only [List.foldl]
      rw [h1, show scanStep (ScanState.utf8Pending 3) c = ScanState.utf8Pending 2 by
        simp [scanStep, hc],
        show scanStep (ScanState.utf8Pending 2) d = ScanState.utf8Pending 1 by
        simp [scanStep, hd]]
      simp [scanStep, he']
  · -- a complete escape sequence
    match it, h with
    | 0x1B :: b :: rest, h =>
      simp only [isEscItem] at h
      have h0 : scanStep ScanState.ground 0x1B = ScanState.escPending := by decide
      by_cases h5b : b == 0x5B
      · rw [if_pos h5b] at h
        rw [show b = 0x5B from by simpa using h5b]
        simpa [List.foldl, h0, scanStep] using csiBody_scan h
      · rw [if_neg (by simpa using h5b)] at h
        by_cases h5d : b == 0x5D
        · rw [if_pos h5d] at h
          rw [show b = 0x5D from by simpa using h5d]
          simpa [List.foldl, h0, scanStep] using oscBody_scan h
        · rw [if_neg (by simpa using h5d)] at h
          by_cases hst : (b == 0x50 || b == 0x5E || b == 0x5F) = true
          · rw [if_pos hst] at h
            have hstep : scanStep ScanState.escPending b = ScanState.dcsPending := by
              simp only [scanStep]
              rw [if_neg (by simpa using h5b), if_neg (by simpa using h5d), if_pos (by simpa using hst)]
            simpa [List.foldl, h0, hstep] using stBody_scan h
          · rw [if_neg hst] at h
            simp only [Bool.and_eq_true, decide_eq_true_eq, bne_iff_ne, ne_eq] at h
            obtain ⟨⟨hlt, hne⟩, hrest⟩ := h
            rw [List.isEmpty_iff.mp hrest]
            have hstep : scanStep ScanState.escPending b = ScanState.ground := by
              simp only [scanStep]
              rw [if_neg (by simpa using h5b), if_neg (by simpa using h5d), if_neg (by simpa using hst)]
            simp [List.foldl, h0, hstep]

theorem contByte_ne_esc {c : Nat} (h : isContByte c = true) : c ≠ 0x1B := by
  intro he
  rw [he] at h
  simp [isContByte] at h

theorem expectedLen_pos (b : Nat) : 1 ≤ expectedLen b := by
  simp only [expectedLen]
  split <;> try omega
  split <;> try omega
  split <;> try omega
  split <;> omega

theorem expectedLen_le_four (b : Nat) : expectedLen b ≤ 4 := by
  simp only [expectedLen]
  split <;> try omega
  split <;> try omega
  split <;> try omega
  split <;> omega

theorem expectedLen_ge_two_high {b : Nat} (h : 2 ≤ expectedLen b) : 0x80 ≤ b := by
  by_contra hlt
  simp only [expectedLen, if_pos (by omega : b < 0x80)] at h
  omega

theorem utf8_no_esc {it : List Nat} (h : isUtf8CharBytes it = true) :
    it.all (fun b => b != 0x1B) = true := by
  match it, h with
  | [b], h =>
    simp only [isUtf8CharBytes, Bool.and_eq_true, decide_eq_true_eq, bne_iff_ne, ne_eq] at h
    simp [h.2]
  | [b, c], h =>
    simp only [isUtf8CharBytes, Bool.and_eq_true, beq_iff_eq] at h
    obtain ⟨_, hle, _⟩ := lead2_spec h.1
    simp only [List.all_cons, List.all_nil, Bool.and_eq_true, bne_iff_ne, ne_eq]
    exact ⟨by omega, contByte_ne_esc h.2, trivial⟩
  | [b, c, d], h =>
    simp only [isUtf8CharBytes, Bool.and_eq_true, beq_iff_eq] at h
    obtain ⟨_, _, hle, _⟩ := lead3_spec h.1.1
    simp only [List.all_cons, List.all_nil, Bool.and_eq_true, bne_iff_ne, ne_eq]
    exact ⟨by omega, contByte_ne_esc h.1.2, contByte_ne_esc h.2, trivial⟩
  | [b, c, d, e], h =>
    simp only [isUtf8CharBytes, Bool.and_eq_true, beq_iff_eq] at h
    obtain ⟨_, _, _, hle, _⟩ := lead4_spec h.1.1.1
    simp only [List.all_cons, List.all_nil, Bool.and_eq_true, bne_iff_ne, ne_eq]
    exact ⟨by omega, contByte_ne_esc h.1.1.2, contByte_ne_esc h.1.2, contByte_ne_esc h.2,
      trivial⟩

theorem csiBody_any {body : List Nat} (h : csiBody body = true) :
    body.any csiTerm = true := by
  induction body with
  | nil => simp [csiBody] at h
  | cons p rest ih =>
    simp only [csiBody] at h
    by_cases hp : csiTerm p = true
    · simp [hp]
    · rw [if_neg hp] at h
      simp [ih (Bool.and_elim_right h)]

theorem csiBody_no_esc {body : List Nat} (h : csiBody body = true) :
    body.all (fun p => p != 0x1B) = true := by
  induction body with
  | nil => simp
  | cons p rest ih =>
    simp only [csiBody] at h
    by_cases hp : csiTerm p = true
    · rw [if_pos hp] at h
      rw [List.isEmpty_iff.mp h]
      have : 0x40 ≤ p := by
        have := hp
        simp only [csiTerm, Bool.and_eq_true, decide_eq_true_eq] at this
        exact this.1
      simp only [List.all_cons, List.all_nil, Bool.and_true, bne_iff_ne, ne_eq]
      omega
    · rw [if_neg hp] at h
      simp only [Bool.and_eq_true] at h
      simp [h.1, ih h.2]

theorem oscBody_terminated {body : List Nat} (h : oscBody body = true) (r : List Nat) :
    oscTerminated (body ++ r) = true := by
  induction body with
  | nil => simp [oscBody] at h
  | cons p rest ih =>
    simp only [oscBody] at h
    simp only [List.cons_append, oscTerminated]
    by_cases h7 : p == 0x07
    · simp [h7]
    · rw [if_neg (by simpa using h7)] at h
      by_cases h27 : p == 0x1B
      · rw [if_pos h27] at h
        have : rest = [0x5C] := by simpa using h
        subst this
        simp [h27]
      · rw [if_neg (by simpa using h27)] at h
        simp [ih h]

theorem stBody_terminated {body : List Nat} (h : stBody body = true) (r : List Nat) :
    stTerminated (body ++ r) = true := by
  induction body with
  | nil => simp [stBody] at h
  | cons p rest ih =>
    simp only [stBody] at h
    simp only [List.cons_append, stTerminated]
    by_cases h27 : p == 0x1B
    · rw [if_pos h27] at h
      have : rest = [0x5C] := by simpa using h
      subst this
      simp [h27]
    · rw [if_neg (by simpa using h27)] at h
      simp [ih h]

theorem oscTerminated_false {body : List Nat}
    (h : body.all (fun p => p != 0x07 && p != 0x1B) = true) :
    oscTerminated body = false := by
  induction body with
  | nil => simp [oscTerminated]
  | cons p rest ih =>
    simp only [List.all_cons, Bool.and_eq_true, bne_iff_ne, ne_eq] at h
    obtain ⟨⟨h7, h27⟩, hrest⟩ := h
    simp [oscTerminated, h7, h27, ih hrest]

theorem stTerminated_false {body : List Nat}
    (h : body.all (fun p => p != 0x1B) = true) :
    stTerminated body = false := by
  induction body with
  | nil => simp [stTerminated]
  | cons p rest ih =>
    simp only [List.all_cons, Bool.and_eq_true, bne_iff_ne, ne_eq] at h
    simp [stTerminated, h.1, ih h.2]

theorem oscBody_esc_suffix {body w : List Nat} (h : oscBody body = true)
    (hs : (0x1B :: w) <:+ body) : w = [0x5C] := by
  induction body with
  | nil => simp at hs
  | cons p rest ih =>
    simp only [oscBody] at h
    rcases List.suffix_cons_iff.mp hs with heq | hs'
    · have hp : p = 0x1B := by
        have := congrArg (List.head? ·) heq
        simp at this
        omega
      subst hp
      rw [if_neg (by decide), if_pos (by decide)] at h
      have hb : rest = [0x5C] := by simpa using h
      have := congrArg (List.tail ·) heq
      simpa [hb] using this
    · by_cases h7 : p == 0x07
      · rw [if_pos h7] at h
        rw [List.isEmpty_iff.mp h] at hs'
        simp at hs'
      · rw [if_neg (by simpa using h7)] at h
        by_cases h27 : p == 0x1B
        · rw [if_pos h27] at h
          have hb : rest = [0x5C] := by simpa using h
          subst hb
          rcases List.suffix_cons_iff.mp hs' with heq | hs''
          · simp at heq
          · simp at hs''
        · exact ih (by rwa [if_neg (by simpa using h27)] at h) hs'

theorem stBody_esc_suffix {body w : List Nat} (h : stBody body = true)
    (hs : (0x1B :: w) <:+ body) : w = [0x5C] := by
  induction body with
  | nil => simp at hs
  | cons p rest ih =>
    simp only [stBody] at h
    rcases List.suffix_cons_iff.mp hs with heq | hs'
    · have hp : p = 0x1B := by
        have := congrArg (List.head? ·) heq
        simp at this
        omega
      subst hp
      rw [if_pos (by decide)] at h
      have hb : rest = [0x5C] := by simpa using h
      have := congrArg (List.tail ·) heq
      simpa [hb] using this
    · by_cases h27 : p == 0x1B
      · rw [if_pos h27] at h
        have hb : rest = [0x5C] := by simpa using h
        subst hb
        rcases List.suffix_cons_iff.mp hs' with heq | hs''
        · simp at heq
        · simp at hs''
      · exact ih (by rwa [if_neg (by simpa using h27)] at h) hs'

theorem suffix_append_cases {α : Type} {s a b : List α} (h : s <:+ a ++ b) :
    s <:+ b ∨ ∃ a', a' <:+ a ∧ a' ≠ [] ∧ s = a' ++ b := by
  obtain ⟨t, ht⟩ := h
  have hlens : t.length + s.length = a.length + b.length := by
    have := congrArg List.length ht
    simpa using this
  have hs : s = (a ++ b).drop t.length := by
    rw [← ht, List.drop_left]
  by_cases hlen : s.length ≤ b.length
  · left
    have hteq : t.length = a.length + (b.length - s.length) := by omega
    rw [hteq, List.drop_append] at hs
    rw [hs]
    exact List.drop_suffix _ b
  · right
    have hta : t.length ≤ a.length := by omega
    rw [List.drop_append_of_le_length hta] at hs
    refine ⟨a.drop t.length, List.drop_suffix _ a, ?_, hs⟩
    intro hnil
    have := congrArg List.length hnil
    simp at this
    omega

theorem item_esc_suffix_ok {it w : List Nat} (h : isItem it = true)
    (hs : (0x1B :: w) <:+ it) (rest : List Nat) :
    escTailIncomplete (w ++ rest) = false := by
  simp only [isItem, Bool.or_eq_true] at h
  rcases h with h | h
  · exfalso
    have hall := utf8_no_esc h
    rw [List.all_eq_true] at hall
    have hmem : (0x1B : Nat) ∈ it := hs.subset (by simp)
    simpa using hall _ hmem
  · match it, h with
    | 0x1B :: b :: body, h =>
      simp only [isEscItem] at h
      by_cases h5b : b == 0x5B
      · -- CSI item
        have hb : b = 0x5B := by simpa using h5b
        subst hb
        rw [if_pos (by decide)] at h
        rcases List.suffix_cons_iff.mp hs with heq | hs'
        · have hw : w = 0x5B :: body := by simpa using heq
          subst hw
          simp [escTailIncomplete, List.any_append, csiBody_any h]
        · exfalso
          have hall := csiBody_no_esc h
          rw [List.all_eq_true] at hall
          rcases List.suffix_cons_iff.mp hs' with heq | hs''
          · simp at heq
          · have hmem : (0x1B : Nat) ∈ body := hs''.subset (by simp)
            simpa using hall _ hmem
      · rw [if_neg (by simpa using h5b)] at h
        by_cases h5d : b == 0x5D
        · -- OSC item
          have hb : b = 0x5D := by simpa using h5d
          subst hb
          rw [if_pos (by decide)] at h
          rcases List.suffix_cons_iff.mp hs with heq | hs'
          · have hw : w = 0x5D :: body := by simpa using heq
            subst hw
            simp [escTailIncomplete, oscBody_terminated h rest]
          · rcases List.suffix_cons_iff.mp hs' with heq | hs''
            · simp at heq
            · have hw : w = [0x5C] := oscBody_esc_suffix h hs''
              subst hw
              simp [escTailIncomplete]
        · rw [if_neg (by simpa using h5d)] at h
          by_cases hst : (b == 0x50 || b == 0x5E || b == 0x5F) = true
          · -- DCS/PM/APC item
            rw [if_pos hst] at h
            have e1 : (b == 0x5B) = false := by simpa using h5b
            have e2 : (b == 0x5D) = false := by simpa using h5d
            rcases List.suffix_cons_iff.mp hs with heq | hs'
            · have hw : w = b :: body := by simpa using heq
              subst hw
              simp [escTailIncomplete, e1, e2, hst, stBody_terminated h rest]
            · rcases List.suffix_cons_iff.mp hs' with heq | hs''
              · exfalso
                have hb : b = 0x1B := by
                  have := congrArg (List.head? ·) heq
                  simp at this
                  omega
                rw [hb] at hst
                simp at hst
              · have hw : w = [0x5C] := stBody_esc_suffix h hs''
                subst hw
                simp [escTailIncomplete]
          · -- plain two-byte escape
            rw [if_neg hst] at h
            simp only [Bool.and_eq_true, decide_eq_true_eq, bne_iff_ne, ne_eq] at h
            obtain ⟨⟨hlt, hne⟩, hbody⟩ := h
            rw [List.isEmpty_iff.mp hbody] at hs
            have e1 : (b == 0x5B) = false := by simpa using h5b
            have e2 : (b == 0x5D) = false := by simpa using h5d
            rcases List.suffix_cons_iff.mp hs with heq | hs'
            · have hw : w = [b] := by simpa using heq
              subst hw
              simp [escTailIncomplete, e1, e2, hst]
            · exfalso
              rcases List.suffix_cons_iff.mp hs' with heq | hs''
              · have : b = 0x1B := by
                  have := congrArg (List.head? ·) heq
                  simp at this
                  omega
                exact hne this
              · simp at hs''

theorem structured_no_bad_esc {parts : List (List Nat)} {tl : List Nat}
    (hp : parts.all isItem = true) (htl : tl.all (fun b => b != 0x1B) = true)
    {w : List Nat} (hs : (0x1B :: w) <:+ (parts.flatten ++ tl)) :
    escTailIncomplete w = false := by
  induction parts generalizing w with
  | nil =>
    exfalso
    simp only [List.flatten_nil, List.nil_append] at hs
    rw [List.all_eq_true] at htl
    have hmem : (0x1B : Nat) ∈ tl := hs.subset (List.mem_cons_self _ _)
    have := htl _ hmem
    simp at this
  | cons it ps ih =>
    simp only [List.all_cons, Bool.and_eq_true] at hp
    simp only [List.flatten_cons, List.append_assoc] at hs
    rcases suffix_append_cases hs with hsuf | ⟨a', ha', hne, heq⟩
    · exact ih hp.2 hsuf
    · cases a' with
      | nil => exact absurd rfl hne
      | cons x a'' =>
        rw [List.cons_append] at heq
        injection heq with hx hw
        subst hx
        rw [hw]
        exact item_esc_suffix_ok hp.1 ha' _

theorem escBoundary_none_of {bytes : List Nat}
    (h : ∀ w, (0x1B :: w) <:+ bytes → escTailIncomplete w = false) :
    escBoundary bytes = none := by
  simp only [escBoundary]
  rw [List.find?_eq_none]
  intro i _
  by_cases h27 : bytes.getD i 0 == 0x1B
  · have h27' : bytes.getD i 0 = 0x1B := by simpa using h27
    have hilt : i < bytes.length := by
      by_contra hge
      push_neg at hge
      rw [List.getD_eq_default _ _ hge] at h27'
      omega
    have hdrop : bytes.drop i = 0x1B :: bytes.drop (i + 1) := by
      rw [List.drop_eq_getElem_cons hilt]
      rw [← List.getD_eq_getElem bytes 0 hilt, h27']
    have hsuf : (0x1B :: bytes.drop (i + 1)) <:+ bytes := hdrop ▸ List.drop_suffix i bytes
    have hfalse := h _ hsuf
    simp [escIncompleteAt, hfalse]
  · intro hcontra
    simp only [Bool.and_eq_true] at hcontra
    exact h27 hcontra.1

theorem partialUtf8_no_esc {t : List Nat} (h : isPartialUtf8 t = true) :
    t.all (fun b => b != 0x1B) = true := by
  match t, h with
  | b :: rest, h =>
    simp only [isPartialUtf8, Bool.and_eq_true, decide_eq_true_eq] at h
    obtain ⟨⟨_, hc⟩, hlen⟩ := h
    have h2 : 2 ≤ expectedLen b := by omega
    have h80 := expectedLen_ge_two_high h2
    simp only [List.all_cons, Bool.and_eq_true, bne_iff_ne, ne_eq]
    refine ⟨by omega, ?_⟩
    rw [List.all_eq_true] at hc ⊢
    intro x hx
    simpa using contByte_ne_esc (hc x hx)

theorem find?_range'_reverse_eq_some {p : Nat → Bool} {s0 L : Nat} (m : Nat)
    (hL1 : s0 ≤ L) (hL2 : L < s0 + m)
    (hupper : ∀ i, L < i → i < s0 + m → p i = false)
    (hp : p L = true) :
    (List.range' s0 m).reverse.find? p = some L := by
  induction m with
  | zero => omega
  | succ n ih =>
    rw [show List.range' s0 (n + 1) = List.range' s0 n ++ [s0 + n] by
      simpa using @List.range'_concat 1 s0 n]
    rw [List.reverse_append]
    simp only [List.reverse_cons, List.reverse_nil, List.nil_append, List.cons_append,
      List.singleton_append]
    by_cases hL : L = s0 + n
    · rw [List.find?_cons_of_pos _ (hL ▸ hp), hL]
    · have hlt : L < s0 + n := by omega
      rw [List.find?_cons_of_neg _ (by simp [hupper (s0 + n) (by omega) (by omega)])]
      exact ih hlt (fun i hi1 hi2 => hupper i hi1 (by omega))

theorem partialEsc_facts {tl : List Nat} (ht : isPartialEsc tl = true) :
    ∃ body, tl = 0x1B :: body ∧ body.all (fun b => b != 0x1B) = true ∧
      escTailIncomplete body = true := by
  match tl, ht with
  | [0x1B], _ => exact ⟨[], rfl, by simp, by simp [escTailIncomplete]⟩
  | 0x1B :: b :: rest, ht =>
    simp only [isPartialEsc] at ht
    by_cases h5b : b == 0x5B
    · have hb : b = 0x5B := by simpa using h5b
      subst hb
      rw [if_pos (by decide)] at ht
      refine ⟨0x5B :: rest, rfl, ?_, ?_⟩
      · simp only [List.all_cons, Bool.and_eq_true]
        refine ⟨by simp, ?_⟩
        rw [List.all_eq_true] at ht ⊢
        intro x hx
        have := ht x hx
        simp only [Bool.and_eq_true] at this
        simpa using this.2
      · simp only [escTailIncomplete, if_pos (by decide : ((0x5B : Nat) == 0x5B) = true)]
        have : rest.any csiTerm = false := by
          rw [List.any_eq_false]
          intro x hx
          rw [List.all_eq_true] at ht
          have := ht x hx
          simp only [Bool.and_eq_true, Bool.not_eq_true'] at this
          simp [this.1]
        simp [this]
    · rw [if_neg (by simpa using h5b)] at ht
      by_cases h5d : b == 0x5D
      · have hb : b = 0x5D := by simpa using h5d
        subst hb
        rw [if_pos (by decide)] at ht
        refine ⟨0x5D :: rest, rfl, ?_, ?_⟩
        · simp only [List.all_cons, Bool.and_eq_true]
          refine ⟨by simp, ?_⟩
          rw [List.all_eq_true] at ht ⊢
          intro x hx
          have := ht x hx
          simp only [Bool.and_eq_true] at this
          simpa using this.2
        · simp only [escTailIncomplete]
          rw [if_neg (by decide), if_pos (by decide)]
          simp [oscTerminated_false ht]
      · rw [if_neg (by simpa using h5d)] at ht
        by_cases hst : (b == 0x50 || b == 0x5E || b == 0x5F) = true
        · rw [if_pos hst] at ht
          have e1 : (b == 0x5B) = false := by simpa using h5b
          have e2 : (b == 0x5D) = false := by simpa using h5d
          refine ⟨b :: rest, rfl, ?_, ?_⟩
          · simp only [List.all_cons, Bool.and_eq_true]
            have hb27 : b ≠ 0x1B := by
              rcases (by simpa using hst : (b = 0x50 ∨ b = 0x5E) ∨ b = 0x5F) with (h | h) | h <;>
                omega
            exact ⟨by simpa using hb27, ht⟩
          · simp only [escTailIncomplete, e1, e2, hst]
            simp [stTerminated_false ht]
        · rw [if_neg hst] at ht
          exact absurd ht (by simp)

theorem escBoundary_some_structured {parts : List (List Nat)} {tl : List Nat}
    (ht : isPartialEsc tl = true) (hlen : tl.length ≤ 32) :
    escBoundary (parts.flatten ++ tl) = some parts.flatten.length := by
  obtain ⟨body, rfl, hbody, hinc⟩ := partialEsc_facts ht
  have hlen' : body.length + 1 ≤ 32 := by simpa using hlen
  have hlenb : (parts.flatten ++ 0x1B :: body).length =
      parts.flatten.length + (body.length + 1) := by simp
  simp only [escBoundary]
  apply find?_range'_reverse_eq_some
  · omega
  · omega
  · intro i hi1 hi2
    obtain ⟨j, hj⟩ : ∃ j, i - parts.flatten.length = j + 1 :=
      ⟨i - parts.flatten.length - 1, by omega⟩
    have hgd : (parts.flatten ++ 0x1B :: body).getD i 0 = body.getD j 0 := by
      rw [List.getD_append_right _ _ _ _ (by omega), hj, List.getD_cons_succ]
    have hmem : body.getD j 0 ∈ body := by
      have hidx : j < body.length := by omega
      rw [List.getD_eq_getElem _ _ hidx]
      exact List.getElem_mem hidx
    rw [List.all_eq_true] at hbody
    have hne := hbody _ hmem
    simp only [bne_iff_ne, ne_eq] at hne
    rw [show ((parts.flatten ++ 0x1B :: body).getD i 0 == 0x1B) = false from by
      rw [hgd]; simpa using hne]
    rw [Bool.false_and]
  · have hgd : (parts.flatten ++ 0x1B :: body).getD parts.flatten.length 0 = 0x1B := by
      rw [List.getD_append_right _ _ _ _ (le_refl _)]
      simp
    have hdrop : (parts.flatten ++ 0x1B :: body).drop (parts.flatten.length + 1) = body := by
      have : parts.flatten ++ 0x1B :: body = (parts.flatten ++ [0x1B]) ++ body := by simp
      rw [this, show parts.flatten.length + 1 = (parts.flatten ++ [0x1B]).length + 0 by simp,
        List.drop_append]
      simp
    have hesc : escIncompleteAt (parts.flatten ++ 0x1B :: body) parts.flatten.length
        = true := by
      simp only [escIncompleteAt]
      rw [hdrop]
      exact hinc
    rw [hgd, hesc]
    rfl

theorem utf8Boundary_split {front : List Nat} {lead : Nat} {conts : List Nat}
    (hl : isContByte lead = false) (hc : conts.all isContByte = true)
    (hk : conts.length ≤ 3) :
    utf8Boundary (front ++ lead :: conts) =
      if expectedLen lead ≤ conts.length + 1 then (front ++ lead :: conts).length
      else front.length := by
  have hlenb : (front ++ lead :: conts).length = front.length + (conts.length + 1) := by
    simp
  have hgdL : (front ++ lead :: conts).getD front.length 0 = lead := by
    rw [List.getD_append_right _ _ _ _ (le_refl _)]
    simp
  have hfind : (List.range' ((front ++ lead :: conts).length - 4)
      ((front ++ lead :: conts).length - ((front ++ lead :: conts).length - 4))).reverse.find?
        (fun i => !isContByte ((front ++ lead :: conts).getD i 0)) = some front.length := by
    apply find?_range'_reverse_eq_some
    · omega
    · omega
    · intro i hi1 hi2
      obtain ⟨j, hj⟩ : ∃ j, i - front.length = j + 1 := ⟨i - front.length - 1, by omega⟩
      have hgd : (front ++ lead :: conts).getD i 0 = conts.getD j 0 := by
        rw [List.getD_append_right _ _ _ _ (by omega), hj, List.getD_cons_succ]
      have hidx : j < conts.length := by omega
      have hmem : conts.getD j 0 ∈ conts := by
        rw [List.getD_eq_getElem _ _ hidx]
        exact List.getElem_mem hidx
      rw [List.all_eq_true] at hc
      have hcont := hc _ hmem
      rw [hgd, hcont]
      rfl
    · rw [hgdL, hl]
      rfl
  simp only [utf8Boundary]
  rw [hfind]
  dsimp only
  rw [hgdL]
  have harith : (front ++ lead :: conts).length - front.length = conts.length + 1 := by
    omega
  rw [harith]

theorem expectedLen_low {b : Nat} (h : b < 0x80) : expectedLen b = 1 := by
  simp only [expectedLen, if_pos h]

theorem csiBody_last {body : List Nat} (h : csiBody body = true) :
    ∃ q t, body = q ++ [t] ∧ csiTerm t = true := by
  induction body with
  | nil => simp [csiBody] at h
  | cons p rest ih =>
    simp only [csiBody] at h
    by_cases hp : csiTerm p = true
    · rw [if_pos hp] at h
      exact ⟨[], p, by rw [List.isEmpty_iff.mp h]; rfl, hp⟩
    · rw [if_neg hp] at h
      obtain ⟨q, t, hqt, hterm⟩ := ih (Bool.and_elim_right h)
      exact ⟨p :: q, t, by rw [hqt]; rfl, hterm⟩

theorem oscBody_last {body : List Nat} (h : oscBody body = true) :
    ∃ q t, body = q ++ [t] ∧ t < 0x80 := by
  induction body with
  | nil => simp [oscBody] at h
  | cons p rest ih =>
    simp only [oscBody] at h
    by_cases h7 : p == 0x07
    · rw [if_pos h7] at h
      refine ⟨[], p, by rw [List.isEmpty_iff.mp h]; rfl, ?_⟩
      have : p = 0x07 := by simpa using h7
      omega
    · rw [if_neg (by simpa using h7)] at h
      by_cases h27 : p == 0x1B
      · rw [if_pos h27] at h
        have hr : rest = [0x5C] := by simpa using h
        exact ⟨[p], 0x5C, by rw [hr]; rfl, by omega⟩
      · rw [if_neg (by simpa using h27)] at h
        obtain ⟨q, t, hqt, hlow⟩ := ih h
        exact ⟨p :: q, t, by rw [hqt]; rfl, hlow⟩

theorem stBody_last {body : List Nat} (h : stBody body = true) :
    ∃ q t, body = q ++ [t] ∧ t < 0x80 := by
  induction body with
  | nil => simp [stBody] at h
  | cons p rest ih =>
    simp only [stBody] at h
    by_cases h27 : p == 0x1B
    · rw [if_pos h27] at h
      have hr : rest = [0x5C] := by simpa using h
      exact ⟨[p], 0x5C, by rw [hr]; rfl, by omega⟩
    · rw [if_neg (by simpa using h27)] at h
      obtain ⟨q, t, hqt, hlow⟩ := ih h
      exact ⟨p :: q, t, by rw [hqt]; rfl, hlow⟩

theorem item_last_decomp {it : List Nat} (h : isItem it = true) :
    ∃ pre lead conts, it = pre ++ lead :: conts ∧ isContByte lead = false ∧
      conts.all isContByte = true ∧ conts.length ≤ 3 ∧
      expectedLen lead ≤ conts.length + 1 := by
  simp only [isItem, Bool.or_eq_true] at h
  rcases h with h | h
  · match it, h with
    | [b], h =>
      simp only [isUtf8CharBytes, Bool.and_eq_true, decide_eq_true_eq] at h
      exact ⟨[], b, [], rfl, isContByte_false_of_low h.1, rfl, by simp,
        by rw [expectedLen_low h.1]; simp⟩
    | [b, c], h =>
      simp only [isUtf8CharBytes, Bool.and_eq_true, beq_iff_eq] at h
      obtain ⟨hc0, _, hexp⟩ := lead2_spec h.1
      refine ⟨[], b, [c], rfl, ?_, by simp [h.2], by simp, by rw [hexp]; simp⟩
      simp [isContByte, hc0]
    | [b, c, d], h =>
      simp only [isUtf8CharBytes, Bool.and_eq_true, beq_iff_eq] at h
      obtain ⟨_, hc0, _, hexp⟩ := lead3_spec h.1.1
      refine ⟨[], b, [c, d], rfl, ?_, by simp [h.1.2, h.2], by simp, by rw [hexp]; simp⟩
      simp [isContByte, hc0]
    | [b, c, d, e], h =>
      simp only [isUtf8CharBytes, Bool.and_eq_true, beq_iff_eq] at h
      obtain ⟨_, _, hc0, _, hexp⟩ := lead4_spec h.1.1.1
      refine ⟨[], b, [c, d, e], rfl, ?_, by simp [h.1.1.2, h.1.2, h.2], by simp,
        by rw [hexp]; simp⟩
      simp [isContByte, hc0]
  · match it, h with
    | 0x1B :: b :: body, h =>
      simp only [isEscItem] at h
      by_cases h5b : b == 0x5B
      · rw [if_pos h5b] at h
        obtain ⟨q, t, hqt, hterm⟩ := csiBody_last h
        have hlow : t < 0x80 := by
          simp only [csiTerm, Bool.and_eq_true, decide_eq_true_eq] at hterm
          omega
        exact ⟨0x1B :: b :: q, t, [], by rw [hqt]; rfl, isContByte_false_of_low hlow,
          rfl, by simp, by rw [expectedLen_low hlow]; simp⟩
      · rw [if_neg (by simpa using h5b)] at h
        by_cases h5d : b == 0x5D
        · rw [if_pos h5d] at h
          obtain ⟨q, t, hqt, hlow⟩ := oscBody_last h
          exact ⟨0x1B :: b :: q, t, [], by rw [hqt]; rfl, isContByte_false_of_low hlow,
            rfl, by simp, by rw [expectedLen_low hlow]; simp⟩
        · rw [if_neg (by simpa using h5d)] at h
          by_cases hst : (b == 0x50 || b == 0x5E || b == 0x5F) = true
          · rw [if_pos hst] at h
            obtain ⟨q, t, hqt, hlow⟩ := stBody_last h
            exact ⟨0x1B :: b :: q, t, [], by rw [hqt]; rfl, isContByte_false_of_low hlow,
              rfl, by simp, by rw [expectedLen_low hlow]; simp⟩
          · rw [if_neg hst] at h
            simp only [Bool.and_eq_true, decide_eq_true_eq] at h
            refine ⟨[0x1B], b, [], by rw [List.isEmpty_iff.mp h.2]; rfl, ?_, rfl, by simp, ?_⟩
            · exact isContByte_false_of_low h.1.1
            · rw [expectedLen_low h.1.1]
              simp

theorem chunkClean_flatten {parts : List (List Nat)} (h : parts.all isItem = true) :
    chunkClean parts.flatten = true := by
  simp only [chunkClean, scanChunk, beq_iff_eq]
  induction parts with
  | nil => decide
  | cons it ps ih =>
    simp only [List.all_cons, Bool.and_eq_true] at h
    simp only [List.flatten_cons, List.foldl_append, item_scan h.1]
    simpa [chunkClean, scanChunk] using ih h.2

theorem isEmpty_false_of_ne_nil {l : List Nat} (h : l ≠ []) : ¬(l.isEmpty = true) := by
  simpa [List.isEmpty_iff] using h

/-- C2 (amended): for every buffer that is a concatenation of complete items
(UTF-8 code points other than ESC, and CSI/OSC/DCS/PM/APC escape sequences
without interior ESC bytes and with an ASCII second byte for plain two-byte
escapes) followed by at most one truncated item of length at most 32,
`find_safe_boundary` cuts exactly at the start of the truncated tail
fragment, and the emitted prefix contains only complete UTF-8 code points and
complete ANSI escape sequences. -/
theorem find_safe_boundary_structured (parts : List (List Nat)) (tl : List Nat)
    (hp : parts.all isItem = true) (ht : isTailFragment tl = true)
    (hlen : tl.length ≤ 32) :
    find_safe_boundary (parts.flatten ++ tl) = parts.flatten.length ∧
      chunkClean ((parts.flatten ++ tl).take (find_safe_boundary (parts.flatten ++ tl)))
        = true := by
  have hmain : find_safe_boundary (parts.flatten ++ tl) = parts.flatten.length := by
    simp only [isTailFragment, Bool.or_eq_true] at ht
    rcases ht with (ht | ht) | ht
    · -- empty tail: the whole buffer is complete items
      have htl : tl = [] := List.isEmpty_iff.mp ht
      subst htl
      rcases List.eq_nil_or_concat parts with hnil | ⟨ps, it, hconcat⟩
      · subst hnil
        simp [find_safe_boundary]
      · subst hconcat
        rw [List.concat_eq_append] at hp ⊢
        have hall : ps.all isItem = true ∧ isItem it = true := by
          simpa using hp
        obtain ⟨pre, lead, conts, hdecomp, hlead, hconts, hk, hcomplete⟩ :=
          item_last_decomp hall.2
        have hbytes : (ps ++ [it]).flatten ++ ([] : List Nat) =
            (ps.flatten ++ pre) ++ lead :: conts := by
          rw [List.flatten_concat, hdecomp]
          simp
        have hnone : escBoundary ((ps ++ [it]).flatten ++ ([] : List Nat)) = none :=
          escBoundary_none_of (fun w hs =>
            structured_no_bad_esc hp (by simp) hs)
        have hne : (ps ++ [it]).flatten ++ ([] : List Nat) ≠ [] := by
          rw [hbytes]
          simp
        simp only [find_safe_boundary]
        rw [if_neg (isEmpty_false_of_ne_nil hne), hnone, hbytes,
          utf8Boundary_split hlead hconts hk, if_pos hcomplete]
        have := congrArg List.length hbytes
        simpa using this.symm
    · -- truncated UTF-8 code point tail
      match tl, ht with
      | lead :: conts, ht =>
        simp only [isPartialUtf8, Bool.and_eq_true, decide_eq_true_eq,
          Bool.not_eq_true'] at ht
        obtain ⟨⟨hlead, hconts⟩, hshort⟩ := ht
        have hnone : escBoundary (parts.flatten ++ lead :: conts) = none :=
          escBoundary_none_of (fun w hs =>
            structured_no_bad_esc hp
              (partialUtf8_no_esc (by
                simp only [isPartialUtf8, Bool.and_eq_true, decide_eq_true_eq,
                  Bool.not_eq_true']
                exact ⟨⟨hlead, hconts⟩, hshort⟩)) hs)
        have hne : parts.flatten ++ lead :: conts ≠ [] := by simp
        have hk : conts.length ≤ 3 := by
          have := expectedLen_le_four lead
          omega
        simp only [find_safe_boundary]
        rw [if_neg (isEmpty_false_of_ne_nil hne), hnone,
          utf8Boundary_split hlead hconts hk, if_neg (by omega)]
    · -- truncated escape sequence tail
      obtain ⟨body, htl, -, -⟩ := partialEsc_facts ht
      have hne : parts.flatten ++ tl ≠ [] := by
        rw [htl]
        simp
      simp only [find_safe_boundary]
      rw [if_neg (isEmpty_false_of_ne_nil hne), escBoundary_some_structured ht hlen]
  refine ⟨hmain, ?_⟩
  rw [hmain, List.take_left]
  exact chunkClean_flatten hp

/-- C2 counterexample: the claim as stated fails on the code: four concrete
buffers for which
the emitted prefix `bytes.take (find_safe_boundary bytes)` contains a
truncated UTF-8 code point or a truncated ANSI escape sequence.  The second,
third and fourth buffers are themselves well-formed (clean) streams. -/
theorem find_safe_boundary_unclean_prefix :
    (find_safe_boundary [0xE2, 0x1B] = 1 ∧
      chunkClean (List.take (find_safe_boundary [0xE2, 0x1B]) [0xE2, 0x1B]) = false) ∧
    (chunkClean ([0x1B, 0x5B] ++ List.replicate 31 0x31 ++ [0x6D]) = true ∧
      find_safe_boundary ([0x1B, 0x5B] ++ List.replicate 31 0x31) = 33 ∧
      chunkClean (List.take (find_safe_boundary ([0x1B, 0x5B] ++ List.replicate 31 0x31))
        ([0x1B, 0x5B] ++ List.replicate 31 0x31)) = false) ∧
    (chunkClean [0x1B, 0x1B] = true ∧ find_safe_boundary [0x1B, 0x1B] = 1 ∧
      chunkClean (List.take (find_safe_boundary [0x1B, 0x1B]) [0x1B, 0x1B]) = false) ∧
    (chunkClean [0x1B, 0x5D, 0x1B, 0x5B, 0x07] = true ∧
      find_safe_boundary [0x1B, 0x5D, 0x1B, 0x5B, 0x07] = 2 ∧
      chunkClean (List.take (find_safe_boundary [0x1B, 0x5D, 0x1B, 0x5B, 0x07])
        [0x1B, 0x5D, 0x1B, 0x5B, 0x07]) = false) := by
  decide

/-- C2 witness: concrete instance of `find_safe_boundary_structured`: an ASCII byte, a
complete CSI sequence and a complete three-byte UTF-8 code point followed by a
truncated CSI sequence. -/
theorem find_safe_boundary_structured_witness :
    ([[0x61], [0x1B, 0x5B, 0x33, 0x31, 0x6D], [0xE2, 0x82, 0xAC]].all isItem = true) ∧
    (isTailFragment [0x1B, 0x5B, 0x33] = true) ∧
    ([0x1B, 0x5B, 0x33].length ≤ 32) ∧
    (find_safe_boundary
        ([[0x61], [0x1B, 0x5B, 0x33, 0x31, 0x6D], [0xE2, 0x82, 0xAC]].flatten ++
          [0x1B, 0x5B, 0x33]) =
      [[0x61], [0x1B, 0x5B, 0x33, 0x31, 0x6D], [0xE2, 0x82, 0xAC]].flatten.length ∧
      chunkClean
        (([[0x61], [0x1B, 0x5B, 0x33, 0x31, 0x6D], [0xE2, 0x82, 0xAC]].flatten ++
            [0x1B, 0x5B, 0x33]).take
          (find_safe_boundary
            ([[0x61], [0x1B, 0x5B, 0x33, 0x31, 0x6D], [0xE2, 0x82, 0xAC]].flatten ++
              [0x1B, 0x5B, 0x33]))) = true) :=
  ⟨by decide, by decide, by decide,
    find_safe_boundary_structured _ _ (by decide) (by decide) (by decide)⟩

end Attn

namespace Attn

theorem streamChunks_flatten (carry : List Nat) (reads : List (List Nat)) :
    (streamChunks carry reads).flatten = carry ++ reads.flatten := by
  induction reads generalizing carry with
  | nil =>
    by_cases h : carry.isEmpty
    · simp [streamChunks, h, List.isEmpty_iff.mp h]
    · simp [streamChunks, h]
  | cons r rs ih =>
    simp only [streamChunks, List.flatten_append, ih, List.flatten_cons]
    by_cases h : find_safe_boundary (carry ++ r) > 0
    · simp only [h, if_pos, List.flatten_cons, List.flatten_nil, List.append_nil,
        List.append_assoc]
      rw [← List.append_assoc, ← List.append_assoc, List.take_append_drop,
        List.append_assoc]
    · have h0 : find_safe_boundary (carry ++ r) = 0 := by omega
      simp [h, h0, List.append_assoc]

/-- C3: For every byte sequence and every way of cutting it into successive
reads, the carryover protocol of the streaming reader loop — prepend the
previous remainder to the new read, split at `find_safe_boundary`, emit the
prefix, retain the suffix, and flush the final remainder at end-of-stream —
yields emitted chunks whose concatenation equals the original byte sequence
exactly. -/
theorem reader_loop_reconstructs_stream (reads : List (List Nat)) :
    (streamChunks [] reads).flatten = reads.flatten := by
  simpa using streamChunks_flatten [] reads

end Attn

namespace Attn

/-! ## Claim C1: operations on unknown session ids -/

theorem removeSession_not_found {reg : List (String × SessionModel)} {id : String}
    (h : lookupSession reg id = none) : removeSession reg id = reg := by
  simp only [lookupSession, Option.map_eq_none'] at h
  rw [List.find?_eq_none] at h
  exact List.eraseP_of_forall_not h

/-- C1 counterexample: with an empty registry in real (non-mock) mode, killing
the unknown id "missing" does not return a not-found error — `pty_kill`
returns `Ok` after a no-op removal. -/
theorem pty_kill_unknown_id_returns_ok :
    lookupSession [] "missing" = none ∧
      pty_kill_model false [] [] "missing" = Except.ok ([], []) :=
  ⟨rfl, rfl⟩

/-- C1 (amended): for a session id absent from the registries, `pty_write`
returns a not-found error in both modes and `pty_kill` returns a not-found
error in mock mode, with no session spawned, modified or removed; in real
mode `pty_kill` of an unknown id succeeds with `Ok` and leaves the registry
unchanged (no side effect), rather than returning a not-found error. -/
theorem unknown_session_operations (mockReg : List String)
    (reg : List (String × SessionModel)) (id : String) (data : List Char)
    (hreal : lookupSession reg id = none) (hmock : mockReg.contains id = false) :
    pty_write_model false mockReg reg id data = Except.error "Session not found" ∧
    pty_write_model true mockReg reg id data = Except.error "Session not found" ∧
    pty_kill_model true mockReg reg id = Except.error "Session not found" ∧
    pty_kill_model false mockReg reg id = Except.ok (mockReg, reg) := by
  have hnm : id ∉ mockReg := by simpa using hmock
  refine ⟨?_, ?_, ?_, ?_⟩
  · simp [pty_write_model, hreal]
  · simp [pty_write_model, hnm]
  · simp [pty_kill_model, hnm]
  · simp [pty_kill_model, removeSession_not_found hreal]

/-- C1 witness: the amended statement at a concrete registry holding only the
session "a", for the unknown id "b". -/
theorem unknown_session_operations_witness :
    (lookupSession [("a", ⟨"codex", [], false, none⟩)] "b" = none ∧
      (["a"] : List String).contains "b" = false) ∧
    (pty_write_model false ["a"] [("a", ⟨"codex", [], false, none⟩)] "b" "x".data =
        Except.error "Session not found" ∧
      pty_write_model true ["a"] [("a", ⟨"codex", [], false, none⟩)] "b" "x".data =
        Except.error "Session not found" ∧
      pty_kill_model true ["a"] [("a", ⟨"codex", [], false, none⟩)] "b" =
        Except.error "Session not found" ∧
      pty_kill_model false ["a"] [("a", ⟨"codex", [], false, none⟩)] "b" =
        Except.ok (["a"], [("a", ⟨"codex", [], false, none⟩)])) :=
  ⟨⟨by decide, by decide⟩,
    unknown_session_operations ["a"] [("a", ⟨"codex", [], false, none⟩)] "b" "x".data
      (by decide) (by decide)⟩

/-! ## Claim C6: daemon notification deduplication -/

theorem notifyFold_chain (cs : List (Option String)) : ∀ last : Option String,
    (notifyFold last cs).Chain' (· ≠ ·) ∧
      ∀ x, (notifyFold last cs).head? = some x → last ≠ some x := by
  induction cs with
  | nil => intro last; exact ⟨by simp [notifyFold], by simp [notifyFold]⟩
  | cons c rest ih =>
    intro last
    match c with
    | none => simpa only [notifyFold] using ih last
    | some s =>
      by_cases h : last == some s
      · simpa only [notifyFold, if_pos h] using ih last
      · simp only [notifyFold, if_neg h]
        obtain ⟨hchain, hhead⟩ := ih (some s)
        have hlast : last ≠ some s := by simpa using h
        constructor
        · rw [List.chain'_cons']
          refine ⟨fun y hy => ?_, hchain⟩
          intro heq
          exact hhead y hy (by rw [heq])
        · intro x hx
          simp only [List.head?_cons, Option.some.injEq] at hx
          subst hx
          exact hlast

/-- C6: daemon state notifications are deduplicated solely by comparison with
the previously surfaced state: the sequence of sent messages never repeats a
state in adjacent positions, a repeated classification adds no message, and a
classification differing from the last surfaced state sends exactly one
message for it. -/
theorem daemon_notify_dedup :
    (∀ cs : List (Option String), (notifyFold none cs).Chain' (· ≠ ·)) ∧
    (∀ (last : Option String) (s : String) (rest : List (Option String)),
      notifyFold last (some s :: some s :: rest) = notifyFold last (some s :: rest)) ∧
    (∀ (last : Option String) (s : String) (rest : List (Option String)),
      last ≠ some s → notifyFold last (some s :: rest) = s :: notifyFold (some s) rest) := by
  refine ⟨fun cs => (notifyFold_chain cs none).1, ?_, ?_⟩
  · intro last s rest
    by_cases h : last == some s
    · simp only [notifyFold, if_pos h]
    · simp only [notifyFold, if_neg h]
      congr 1
      simp only [notifyFold, if_pos (by simp : (some s == some s) = true)]
  · intro last s rest h
    simp only [notifyFold]
    rw [if_neg (by simpa using h)]

/-- C6 witness: three classifications "working", "working", "idle" produce
the two messages "working", "idle", and a single classification differing
from the (empty) last surfaced state produces exactly one message. -/
theorem daemon_notify_dedup_witness :
    notifyFold none [some "working", some "working", some "idle"] =
      ["working", "idle"] ∧
    notifyFold (none : Option String) [some "working"] = ["working"] :=
  ⟨by
      rw [daemon_notify_dedup.2.1 none "working" [some "idle"]]
      decide,
    by
      rw [daemon_notify_dedup.2.2 none "working" [] (by simp)]
      decide⟩

end Attn

namespace Attn

/-! ## Claim C7: input history character processing -/

/-- C7: the input-history tracker processes each character left to right with
one escape-state bit: in escape state, characters are consumed until an ASCII
alphabetic character or `~` exits it; ESC enters escape state; DEL (0x7F) or
backspace (0x08) removes the last history character (no-op when empty); CR
appends a newline; control characters other than newline and tab are dropped;
every other character is appended.  Consequently, from empty history, sending
"abc" then DEL, then ESC `[` `A`, then "d" and CR yields history "abd" plus a
newline. -/
theorem input_history_step_spec :
    (∀ (h : List Char) (e : Bool) (ch : Char),
      inputStep (h, e) ch =
        if e then (if ch.isAlpha ∨ ch = '~' then (h, false) else (h, true))
        else if ch = '\u001B' then (h, true)
        else if ch = '\u007F' ∨ ch = '\u0008' then (h.dropLast, false)
        else if ch = '\r' then (h ++ ['\n'], false)
        else if isControlRust ch ∧ ch ≠ '\n' ∧ ch ≠ '\t' then (h, false)
        else (h ++ [ch], false)) ∧
    update_input_history (update_input_history (update_input_history ([], false)
        "abc\x7f".data) "\u001B[A".data) "d\r".data = ("abd\n".data, false) :=
  ⟨fun _ _ _ => rfl, by decide⟩

/-! ## Claim C9: resume-session id validation -/

/-- C9: a non-shell spawn with a resume-session id not matching the strict
lowercase-hex 8-4-4-4-12 UUID pattern returns a validation error before the
id is interpolated into any command line and registers no session; a matching
id is accepted, registered, and interpolated into the resume flags. -/
theorem resume_session_id_validation :
    (∀ (reg : List (String × SessionModel)) (id : String) (rid : List Char)
        (rp fs : Bool) (ag : Option String), is_valid_uuid rid = false →
      pty_spawn_model reg id false (some rid) rp fs ag =
        Except.error ("Invalid resume session ID format: ".data ++ rid)) ∧
    (∀ (reg : List (String × SessionModel)) (id : String) (rid : List Char)
        (rp fs : Bool) (ag : Option String), is_valid_uuid rid = true →
      pty_spawn_model reg id false (some rid) rp fs ag =
        Except.ok ((id, ⟨normalize_agent ag, [], false, none⟩) :: reg,
          "exec attn".data ++ fork_flags (some rid) rp fs)) := by
  constructor <;> intro reg id rid rp fs ag h <;> simp [pty_spawn_model, h]

/-- C9 witness: a shell-injection attempt is rejected; a well-formed lowercase
UUID is accepted and interpolated. -/
theorem resume_session_id_validation_witness :
    (is_valid_uuid "x\x27; rm -rf ~".data = false ∧
      pty_spawn_model [] "s1" false (some "x\x27; rm -rf ~".data) false false
          (some "codex") =
        Except.error ("Invalid resume session ID format: ".data ++ "x\x27; rm -rf ~".data)) ∧
    (is_valid_uuid "123e4567-e89b-12d3-a456-426614174000".data = true ∧
      pty_spawn_model [] "s1" false
          (some "123e4567-e89b-12d3-a456-426614174000".data) false true
          (some "codex") =
        Except.ok (("s1", ⟨normalize_agent (some "codex"), [], false, none⟩) :: [],
          "exec attn".data ++
            fork_flags (some "123e4567-e89b-12d3-a456-426614174000".data) false true)) :=
  ⟨⟨by decide,
      resume_session_id_validation.1 [] "s1" "x\x27; rm -rf ~".data false false
        (some "codex") (by decide)⟩,
    ⟨by decide,
      resume_session_id_validation.2 [] "s1"
        "123e4567-e89b-12d3-a456-426614174000".data false true (some "codex")
        (by decide)⟩⟩

/-! ## Claim C4: classifier precedence -/

/-- C4: `classify_state` evaluates the heuristics on the ANSI-stripped text in
strict precedence order — pending_approval, else waiting_input, else idle when
a prompt line is present, else working when the stripped text is non-empty,
else none; in particular any text whose stripped form satisfies the approval
heuristic classifies as pending_approval regardless of the waiting-input
heuristic. -/
theorem classify_state_precedence (t : List Char) :
    (is_pending_approval (strip_ansi t) = true →
      classify_state t = some STATE_PENDING_APPROVAL) ∧
    (is_pending_approval (strip_ansi t) = false →
      is_waiting_input (strip_ansi t) = true →
      classify_state t = some STATE_WAITING_INPUT) ∧
    (is_pending_approval (strip_ansi t) = false →
      is_waiting_input (strip_ansi t) = false →
      has_prompt (rustLines (strip_ansi t)) = true →
      classify_state t = some STATE_IDLE) ∧
    (is_pending_approval (strip_ansi t) = false →
      is_waiting_input (strip_ansi t) = false →
      has_prompt (rustLines (strip_ansi t)) = false →
      (trimL (strip_ansi t)).isEmpty = false →
      classify_state t = some STATE_WORKING) ∧
    (is_pending_approval (strip_ansi t) = false →
      is_waiting_input (strip_ansi t) = false →
      has_prompt (rustLines (strip_ansi t)) = false →
      (trimL (strip_ansi t)).isEmpty = true →
      classify_state t = none) := by
  refine ⟨?_, ?_, ?_, ?_, ?_⟩
  · intro h1
    simp [classify_state, h1]
  · intro h1 h2
    simp [classify_state, h1, h2]
  · intro h1 h2 h3
    simp [classify_state, h1, h2, h3]
  · intro h1 h2 h3 h4
    simp [classify_state, h1, h2, h3, h4]
  · intro h1 h2 h3 h4
    simp [classify_state, h1, h2, h3, h4]

/-- C4 witness: a text containing both the approval cue and the waiting-input
cue "Input:" classifies as pending_approval. -/
theorem classify_state_precedence_witness :
    is_pending_approval
        (strip_ansi "Would you like to run the following command?\nInput:".data) = true ∧
    is_waiting_input
        (strip_ansi "Would you like to run the following command?\nInput:".data) = true ∧
    classify_state "Would you like to run the following command?\nInput:".data =
      some STATE_PENDING_APPROVAL :=
  ⟨by decide, by decide,
    (classify_state_precedence "Would you like to run the following command?\nInput:".data).1
      (by decide)⟩

end Attn

namespace Attn

/-! ## Claim C10: codex sessions get pending-approval-only detection -/

/-- C10: for a codex-kind session the reader loop never sends working, idle or
waiting_input: full rolling-tail classification is disabled
(`allow_state_detection` is false, so the rolling tail is not even updated),
and the only message the iteration can send is pending_approval, which
requires the session's `transcript_path` to have been set. -/
theorem codex_reader_pending_only (detect lockOk tset : Bool) (chunk : List Char)
    (st : ReaderLoopState) :
    (∀ m ∈ (readerIterNotify detect lockOk (some ("codex", tset)) chunk st).1,
      m = STATE_PENDING_APPROVAL) ∧
    ((readerIterNotify detect lockOk (some ("codex", tset)) chunk st).1 ≠ [] →
      tset = true) ∧
    (readerIterNotify detect lockOk (some ("codex", tset)) chunk st).2.textTail =
      st.textTail := by
  have hflags : allowFlags detect lockOk (some ("codex", tset)) =
      (false, detect && lockOk && tset) := by
    cases detect <;> cases lockOk <;> simp [allowFlags]
  simp only [readerIterNotify, hflags]
  by_cases h1 : (detect && lockOk && tset) && !chunk.isEmpty
  · simp only [h1, if_pos, Bool.false_and, if_neg (by simp : ¬(false = true))]
    by_cases h2 : !(strip_ansi chunk).isEmpty && is_pending_approval (strip_ansi chunk)
    · simp only [h2, if_pos]
      by_cases h3 : st.lastState == some STATE_PENDING_APPROVAL
      · simp [h3]
      · simp only [Bool.not_eq_true] at h3
        simp only [h3]
        refine ⟨by simp, fun _ => ?_, by simp⟩
        simp only [Bool.and_eq_true] at h1
        exact h1.1.2
    · simp only [Bool.not_eq_true] at h2
      simp [h2]
  · simp only [Bool.not_eq_true] at h1
    simp [h1]

/-- C10 witness: with detection enabled, the lock healthy, and the transcript
matched, a codex session's chunk holding an approval prompt produces exactly
the pending_approval message, and the rolling tail stays empty. -/
theorem codex_reader_pending_only_witness :
    ("pending_approval" = STATE_PENDING_APPROVAL ∧ true = true) ∧
    (readerIterNotify true true (some ("codex", true))
        "Would you like to run the following command?".data ⟨[], none⟩).2.textTail =
      ([] : List Char) :=
  ⟨⟨(codex_reader_pending_only true true true
        "Would you like to run the following command?".data ⟨[], none⟩).1
      "pending_approval" (by decide),
    (codex_reader_pending_only true true true
        "Would you like to run the following command?".data ⟨[], none⟩).2.1
      (by decide)⟩,
    (codex_reader_pending_only true true true
        "Would you like to run the following command?".data ⟨[], none⟩).2.2⟩

end Attn

namespace Attn

/-! ## Claim C5: classification is invariant under ANSI stripping -/

theorem stripAnsiGo_no_esc (l : List Char) :
    ∀ mode : StripMode, '\u001B' ∉ stripAnsiGo mode l := by
  induction l with
  | nil => intro mode; cases mode <;> simp [stripAnsiGo]
  | cons c rest ih =>
    intro mode
    cases mode
    · simp only [stripAnsiGo]
      split_ifs with h
      · exact ih _
      · simp only [List.mem_cons, not_or]
        exact ⟨fun heq => h heq.symm, ih _⟩
    · simp only [stripAnsiGo]
      split_ifs with h1 h2 h3
      · exact ih _
      · exact ih _
      · exact ih _
      · simp only [List.mem_cons, not_or]
        exact ⟨fun heq => h3 heq.symm, ih _⟩
    · simp only [stripAnsiGo]
      split_ifs <;> exact ih _
    · simp only [stripAnsiGo]
      split_ifs <;> exact ih _
    · simp only [stripAnsiGo]
      split_ifs <;> exact ih _

theorem strip_ansi_id_of_no_esc : ∀ l : List Char, '\u001B' ∉ l → strip_ansi l = l := by
  intro l
  induction l with
  | nil => intro _; rfl
  | cons c rest ih =>
    intro h
    simp only [List.mem_cons, not_or] at h
    simp only [strip_ansi, stripAnsiGo]
    rw [if_neg (fun heq => h.1 heq.symm)]
    exact congrArg (c :: ·) (ih h.2)

theorem strip_ansi_idem (l : List Char) : strip_ansi (strip_ansi l) = strip_ansi l :=
  strip_ansi_id_of_no_esc _ (stripAnsiGo_no_esc l .plain)

/-- C5: classification is invariant under ANSI escape sequences: for every
text `t`, `classify_state t = classify_state (strip_ansi t)`; in particular
the approval-prompt example classifies as pending_approval, unchanged when
ANSI color codes are inserted into it or box-drawing borders are drawn around
it. -/
theorem classify_state_ansi_invariant :
    (∀ t : List Char, classify_state t = classify_state (strip_ansi t)) ∧
    classify_state approval_example.data = some STATE_PENDING_APPROVAL ∧
    classify_state approval_example_ansi.data = some STATE_PENDING_APPROVAL ∧
    classify_state approval_example_box.data = some STATE_PENDING_APPROVAL := by
  refine ⟨fun t => ?_, by decide, by decide, by decide⟩
  simp only [classify_state, strip_ansi_idem]

end Attn

namespace Attn

/-! ## Claim C8: input-history bound and boundary-safe trimming -/

theorem boundary_true_of_ge {x : Nat} (h : 0xC0 ≤ x) : isCharBoundaryByte x = true := by
  simp only [isCharBoundaryByte, Bool.or_eq_true, decide_eq_true_eq]
  omega

theorem boundary_false_of_cont {x : Nat} (h1 : 0x80 ≤ x) (h2 : x < 0xC0) :
    (!isCharBoundaryByte x) = true := by
  simp only [isCharBoundaryByte, Bool.not_eq_true', Bool.or_eq_false_iff,
    decide_eq_false_iff_not]
  omega

theorem utf8EncodeChar_parts (c : Char) :
    ∃ b bs, utf8EncodeChar c = b :: bs ∧ isCharBoundaryByte b = true ∧
      bs.all (fun x => !isCharBoundaryByte x) = true := by
  have hm1 : c.toNat % 0x40 < 0x40 := Nat.mod_lt _ (by decide)
  have hm2 : c.toNat / 0x40 % 0x40 < 0x40 := Nat.mod_lt _ (by decide)
  have hm3 : c.toNat / 0x1000 % 0x40 < 0x40 := Nat.mod_lt _ (by decide)
  simp only [utf8EncodeChar]
  split_ifs with h1 h2 h3
  · exact ⟨_, _, rfl, by
      simp only [isCharBoundaryByte, Bool.or_eq_true, decide_eq_true_eq]
      omega, by simp⟩
  · refine ⟨_, _, rfl, boundary_true_of_ge (by omega), ?_⟩
    simp only [List.all_cons, List.all_nil, Bool.and_true]
    exact boundary_false_of_cont (by omega) (by omega)
  · refine ⟨_, _, rfl, boundary_true_of_ge (by omega), ?_⟩
    simp only [List.all_cons, List.all_nil, Bool.and_true, Bool.and_eq_true]
    exact ⟨boundary_false_of_cont (by omega) (by omega),
      boundary_false_of_cont (by omega) (by omega)⟩
  · refine ⟨_, _, rfl, boundary_true_of_ge (by omega), ?_⟩
    simp only [List.all_cons, List.all_nil, Bool.and_true, Bool.and_eq_true]
    exact ⟨boundary_false_of_cont (by omega) (by omega),
      boundary_false_of_cont (by omega) (by omega),
      boundary_false_of_cont (by omega) (by omega)⟩

theorem advanceLen_append_nonboundary {xs : List Nat}
    (h : xs.all (fun x => !isCharBoundaryByte x) = true) (ys : List Nat) :
    advanceLen (xs ++ ys) = xs.length + advanceLen ys := by
  induction xs with
  | nil => simp
  | cons x xs ih =>
    simp only [List.all_cons, Bool.and_eq_true, Bool.not_eq_true'] at h
    have hstep : advanceLen (x :: (xs ++ ys)) = advanceLen (xs ++ ys) + 1 := by
      simp [advanceLen, h.1]
    rw [List.cons_append, hstep, ih h.2, List.length_cons]
    omega

theorem advanceLen_encode (rest : List Char) : advanceLen (utf8Encode rest) = 0 := by
  cases rest with
  | nil => rfl
  | cons c r =>
    obtain ⟨b, bs, hcbs, hb, _⟩ := utf8EncodeChar_parts c
    simp [utf8Encode, hcbs, advanceLen, hb]

theorem trimHistoryChars_id {h : List Char} {m : Nat} (hle : byteLen h ≤ m) :
    trimHistoryChars h m = h := by
  cases h with
  | nil => rfl
  | cons c rest => simp [trimHistoryChars, hle]

theorem byteLen_trimHistoryChars (h : List Char) (m : Nat) :
    byteLen (trimHistoryChars h m) ≤ m := by
  induction h with
  | nil => simp [trimHistoryChars, byteLen, utf8Encode]
  | cons c rest ih =>
    simp only [trimHistoryChars]
    split_ifs with hle
    · exact hle
    · exact ih

theorem trimHistoryChars_suffix (h : List Char) (m : Nat) :
    trimHistoryChars h m <:+ h := by
  induction h with
  | nil => exact List.nil_suffix
  | cons c rest ih =>
    simp only [trimHistoryChars]
    split_ifs with hle
    · exact List.suffix_refl _
    · exact ih.trans (List.suffix_cons c rest)

theorem byteLen_cons (c : Char) (rest : List Char) :
    byteLen (c :: rest) = (utf8EncodeChar c).length + byteLen rest := by
  simp [byteLen, utf8Encode]

theorem trim_history_bytes_eq_encode (h : List Char) (m : Nat) :
    trim_history_bytes (utf8Encode h) m = utf8Encode (trimHistoryChars h m) := by
  induction h with
  | nil => simp [trim_history_bytes, trimHistoryChars, utf8Encode]
  | cons c rest ih =>
    by_cases hle : byteLen (c :: rest) ≤ m
    · rw [trimHistoryChars, if_pos hle, trim_history_bytes,
        if_pos (show (utf8Encode (c :: rest)).length ≤ m from hle)]
    · have hgt : ¬(utf8Encode (c :: rest)).length ≤ m := hle
      rw [trimHistoryChars, if_neg hle, trim_history_bytes, if_neg hgt]
      dsimp only
      obtain ⟨b, bs, hcbs, hb, hbs⟩ := utf8EncodeChar_parts c
      have hcons : utf8Encode (c :: rest) = utf8EncodeChar c ++ utf8Encode rest := by
        simp [utf8Encode]
      have hk1 : 1 ≤ (utf8EncodeChar c).length := by rw [hcbs]; simp
      have hLval : (utf8Encode (c :: rest)).length =
          (utf8EncodeChar c).length + (utf8Encode rest).length := by
        rw [hcons, List.length_append]
      have key : ∀ j, (utf8Encode (c :: rest)).drop ((utf8EncodeChar c).length + j)
          = (utf8Encode rest).drop j := fun j => by rw [hcons, List.drop_append]
      by_cases hrest : byteLen rest ≤ m
      · -- dropping the first character brings the history under the budget
        have hrest' : (utf8Encode rest).length ≤ m := hrest
        have hs1 : 1 ≤ (utf8Encode (c :: rest)).length - m := by omega
        have hs2 : (utf8Encode (c :: rest)).length - m ≤ (utf8EncodeChar c).length := by
          omega
        have hdrop1 : (utf8Encode (c :: rest)).drop
            ((utf8Encode (c :: rest)).length - m) =
            (utf8EncodeChar c).drop ((utf8Encode (c :: rest)).length - m) ++
              utf8Encode rest := by
          rw [hcons]
          exact List.drop_append_of_le_length hs2
        have hdropc : (utf8EncodeChar c).drop ((utf8Encode (c :: rest)).length - m) =
            bs.drop ((utf8Encode (c :: rest)).length - m - 1) := by
          rw [hcbs, show (utf8Encode (c :: rest)).length - m =
            ((utf8Encode (c :: rest)).length - m - 1) + 1 from by omega]
          simp
        have hallnb : (bs.drop ((utf8Encode (c :: rest)).length - m - 1)).all
            (fun x => !isCharBoundaryByte x) = true := by
          rw [List.all_eq_true] at hbs ⊢
          intro x hx
          exact hbs x ((List.drop_subset _ _) hx)
        have hlen2 : (bs.drop ((utf8Encode (c :: rest)).length - m - 1)).length =
            (utf8EncodeChar c).length - ((utf8Encode (c :: rest)).length - m) := by
          rw [List.length_drop, hcbs]
          simp only [List.length_cons]
          omega
        rw [hdrop1, hdropc, advanceLen_append_nonboundary hallnb,
          advanceLen_encode, hlen2]
        rw [show (utf8Encode (c :: rest)).length - m +
            ((utf8EncodeChar c).length - ((utf8Encode (c :: rest)).length - m) + 0) =
            (utf8EncodeChar c).length + 0 from by omega]
        rw [key 0, trimHistoryChars_id hrest]
        simp
      · -- still over budget after the first character: both sides recurse
        have hrest' : ¬(utf8Encode rest).length ≤ m := hrest
        have hstart : (utf8Encode (c :: rest)).length - m =
            (utf8EncodeChar c).length + ((utf8Encode rest).length - m) := by omega
        calc (utf8Encode (c :: rest)).drop
              ((utf8Encode (c :: rest)).length - m +
                advanceLen ((utf8Encode (c :: rest)).drop
                  ((utf8Encode (c :: rest)).length - m)))
            = (utf8Encode (c :: rest)).drop
                ((utf8EncodeChar c).length + (((utf8Encode rest).length - m) +
                  advanceLen ((utf8Encode rest).drop
                    ((utf8Encode rest).length - m)))) := by
              rw [hstart, key]
              congr 1
              omega
          _ = (utf8Encode rest).drop (((utf8Encode rest).length - m) +
                advanceLen ((utf8Encode rest).drop ((utf8Encode rest).length - m))) :=
              key _
          _ = trim_history_bytes (utf8Encode rest) m := by
              rw [trim_history_bytes, if_neg hrest']
          _ = utf8Encode (trimHistoryChars rest m) := ih

/-- C8: after every input-history update the history byte length never exceeds
the 20,000 bound; trimming keeps a suffix of the untrimmed history; and the
byte-level trim of the source equals the encoding of a character suffix, so
trimming never splits a multi-byte character. -/
theorem input_history_bound :
    (∀ (st : List Char × Bool) (data : List Char),
      byteLen (update_input_history st data).1 ≤ 20000) ∧
    (∀ (h : List Char) (m : Nat), trimHistoryChars h m <:+ h) ∧
    (∀ (h : List Char) (m : Nat),
      trim_history_bytes (utf8Encode h) m = utf8Encode (trimHistoryChars h m)) := by
  refine ⟨?_, trimHistoryChars_suffix, trim_history_bytes_eq_encode⟩
  intro st data
  simp only [update_input_history]
  split_ifs with hgt
  · exact byteLen_trimHistoryChars _ _
  · omega

end Attn
